import Mathlib

/-!
Verification development for the `guided-agent` knowledge crate.

The Rust sources under `crates/knowledge` are shallowly embedded below:
pure functions become Lean functions over explicit data, byte-indexed
string operations are modelled over `List Char` with UTF-8 byte
arithmetic, fallible or panicking code returns `Option`/`Except`, and
effectful orchestration (filesystem, network, database) is modelled by
explicit state passing with oracle functions standing for the outcomes
of external calls.  IEEE-754 binary32 arithmetic is modelled exactly
over `ℚ` by correctly-rounded operations (round to nearest, ties to
even, 24-bit significand); the model idealizes the exponent range as
unbounded, which agrees with real `f32` whenever no overflow or
underflow occurs — all concrete computations verified here stay well
inside the normal range.
-/

/-! ## Rust string model: `List Char` with UTF-8 byte arithmetic -/

/-- Model of a Rust `String`/`&str` as its sequence of Unicode scalar
values.  Rust strings are valid UTF-8, so this is faithful; byte-level
operations are recovered through `Char.utf8Size` arithmetic. -/
abbrev RStr := List Char

/-- Rust `char::is_whitespace`: the Unicode `White_Space` property
(precisely the 25 code points listed in the Unicode character database). -/
def rustIsWhitespace (c : Char) : Bool :=
  let n := c.toNat
  (0x09 ≤ n && n ≤ 0x0D) || n == 0x20 || n == 0x85 || n == 0xA0 || n == 0x1680 ||
    (0x2000 ≤ n && n ≤ 0x200A) || n == 0x2028 || n == 0x2029 || n == 0x202F ||
    n == 0x205F || n == 0x3000

/-- Rust `str::len`: the length of the string in UTF-8 bytes. -/
def utf8Len (s : RStr) : Nat := (s.map Char.utf8Size).sum

/-- Rust `str::is_char_boundary`: `0` and the total byte length are
boundaries, and otherwise a byte index is a boundary iff it is the byte
offset of the start of some character. -/
def isCharBoundary : RStr → Nat → Bool
  | _, 0 => true
  | [], _ + 1 => false
  | c :: rest, i + 1 =>
    if i + 1 < c.utf8Size then false else isCharBoundary rest (i + 1 - c.utf8Size)

/-- Byte-indexed slice from the front, `&s[..n]`: the characters whose
UTF-8 encoding lies entirely within the first `n` bytes.  At a char
boundary `n` this agrees with the Rust slice; it is used below only at
boundaries (panicking call sites check `isCharBoundary` explicitly). -/
def byteTake : RStr → Nat → RStr
  | [], _ => []
  | c :: rest, n => if c.utf8Size ≤ n then c :: byteTake rest (n - c.utf8Size) else []

/-- Byte-indexed drop, `&s[n..]`, used only at char boundaries. -/
def byteDrop : RStr → Nat → RStr
  | s, 0 => s
  | [], _ + 1 => []
  | c :: rest, n + 1 =>
    if c.utf8Size ≤ n + 1 then byteDrop rest (n + 1 - c.utf8Size) else c :: rest

/-- Byte-indexed slice `&s[a..b]`, used only at char boundaries. -/
def byteSlice (s : RStr) (a b : Nat) : RStr := byteTake (byteDrop s a) (b - a)

/-- Rust `str::trim`: remove leading and trailing `char::is_whitespace`
characters. -/
def rustTrim (s : RStr) : RStr :=
  ((s.dropWhile rustIsWhitespace).reverse.dropWhile rustIsWhitespace).reverse

/-- Helper for `rfindWhitespaceB`: scan characters left to right keeping
the byte offset of the last whitespace character seen. -/
def rfindWhitespaceBAux : RStr → Nat → Option Nat → Option Nat
  | [], _, best => best
  | c :: rest, off, best =>
    rfindWhitespaceBAux rest (off + c.utf8Size)
      (if rustIsWhitespace c then some off else best)

/-- Rust `str::rfind(char::is_whitespace)`: the byte offset of the last
whitespace character, if any. -/
def rfindWhitespaceB (s : RStr) : Option Nat := rfindWhitespaceBAux s 0 none

/-- Helper for `rustSplitWhitespace`: accumulate the current word
(reversed) while scanning. -/
def splitWsGo : RStr → RStr → List RStr
  | [], cur => if cur = [] then [] else [cur.reverse]
  | c :: rest, cur =>
    if rustIsWhitespace c then
      if cur = [] then splitWsGo rest [] else cur.reverse :: splitWsGo rest []
    else splitWsGo rest (c :: cur)

/-- Rust `str::split_whitespace`: maximal runs of non-whitespace
characters, in order. -/
def rustSplitWhitespace (s : RStr) : List RStr := splitWsGo s []

/-- Rust `str::lines` strips at most one trailing carriage return from
each line. -/
def stripTrailingCR (l : RStr) : RStr :=
  if l.getLast? = some '\r' then l.dropLast else l

/-- Helper for `rustLines`. -/
def rustLinesGo : RStr → RStr → List RStr
  | [], cur => if cur = [] then [] else [stripTrailingCR cur.reverse]
  | c :: rest, cur =>
    if c = '\n' then stripTrailingCR cur.reverse :: rustLinesGo rest []
    else rustLinesGo rest (c :: cur)

/-- Rust `str::lines`: split on `'\n'`, stripping one optional trailing
`'\r'` per line; a trailing final newline yields no extra empty line. -/
def rustLines (s : RStr) : List RStr := rustLinesGo s []

/-- Rust `char::to_lowercase` restricted to its ASCII action.  The full
Unicode mapping agrees with this on every input appearing in the
theorems below (all concrete inputs are ASCII). -/
def rustCharLower (c : Char) : Char :=
  if 'A' ≤ c && c ≤ 'Z' then Char.ofNat (c.toNat + 32) else c

/-- Rust `str::to_lowercase` (ASCII fragment, see `rustCharLower`). -/
def rustToLowercase (s : RStr) : RStr := s.map rustCharLower

/-! ## UTF-8 encoding (for byte-level hashing) -/

/-- UTF-8 encoding of a single Unicode scalar value. -/
def charUtf8Bytes (c : Char) : List Nat :=
  let n := c.toNat
  if n < 0x80 then [n]
  else if n < 0x800 then
    [0xC0 ||| (n >>> 6), 0x80 ||| (n &&& 0x3F)]
  else if n < 0x10000 then
    [0xE0 ||| (n >>> 12), 0x80 ||| ((n >>> 6) &&& 0x3F), 0x80 ||| (n &&& 0x3F)]
  else
    [0xF0 ||| (n >>> 18), 0x80 ||| ((n >>> 12) &&& 0x3F),
     0x80 ||| ((n >>> 6) &&& 0x3F), 0x80 ||| (n &&& 0x3F)]

/-- Rust `str::bytes`: the UTF-8 byte sequence of a string. -/
def utf8Bytes (s : RStr) : List Nat := s.foldr (fun c acc => charUtf8Bytes c ++ acc) []

/-! ## SHA-256 (the `sha2` crate computation used by `calculate_hash`) -/

/-- Reduction modulo 2^32, the word size of SHA-256 arithmetic. -/
def m32 (n : Nat) : Nat := n % 4294967296

/-- Right rotation of a 32-bit word. -/
def rotr32 (k n : Nat) : Nat := m32 ((n >>> k) ||| (n <<< (32 - k)))

/-- SHA-256 `Ch` function. -/
def shaCh (x y z : Nat) : Nat := (x &&& y) ^^^ ((x ^^^ 4294967295) &&& z)

/-- SHA-256 `Maj` function. -/
def shaMaj (x y z : Nat) : Nat := (x &&& y) ^^^ (x &&& z) ^^^ (y &&& z)

/-- SHA-256 big sigma 0. -/
def bsig0 (x : Nat) : Nat := rotr32 2 x ^^^ rotr32 13 x ^^^ rotr32 22 x

/-- SHA-256 big sigma 1. -/
def bsig1 (x : Nat) : Nat := rotr32 6 x ^^^ rotr32 11 x ^^^ rotr32 25 x

/-- SHA-256 small sigma 0. -/
def ssig0 (x : Nat) : Nat := rotr32 7 x ^^^ rotr32 18 x ^^^ (x >>> 3)

/-- SHA-256 small sigma 1. -/
def ssig1 (x : Nat) : Nat := rotr32 17 x ^^^ rotr32 19 x ^^^ (x >>> 10)

/-- The 64 SHA-256 round constants. -/
def shaK : List Nat :=
  [1116352408, 1899447441, 3049323471, 3921009573, 961987163,
   1508970993, 2453635748, 2870763221, 3624381080, 310598401,
   607225278, 1426881987, 1925078388, 2162078206, 2614888103,
   3248222580, 3835390401, 4022224774, 264347078, 604807628,
   770255983, 1249150122, 1555081692, 1996064986, 2554220882,
   2821834349, 2952996808, 3210313671, 3336571891, 3584528711,
   113926993, 338241895, 666307205, 773529912, 1294757372,
   1396182291, 1695183700, 1986661051, 2177026350, 2456956037,
   2730485921, 2820302411, 3259730800, 3345764771, 3516065817,
   3600352804, 4094571909, 275423344, 430227734, 506948616,
   659060556, 883997877, 958139571, 1322822218, 1537002063,
   1747873779, 1955562222, 2024104815, 2227730452, 2361852424,
   2428436474, 2756734187, 3204031479, 3329325298]

/-- The SHA-256 initial hash value. -/
def shaH0 : List Nat :=
  [1779033703, 3144134277, 1013904242, 2773480762,
   1359893119, 2600822924, 528734635, 1541459225]

/-- Big-endian byte representation of a number, `k` bytes wide. -/
def beBytes (k n : Nat) : List Nat :=
  (List.range k).map (fun i => (n >>> (8 * (k - 1 - i))) % 256)

/-- SHA-256 message padding: append `0x80`, zero bytes, and the 64-bit
big-endian bit length so the total is a multiple of 64 bytes. -/
def shaPad (msg : List Nat) : List Nat :=
  let l := msg.length
  let zeros := (64 - (l + 9) % 64) % 64
  msg ++ 0x80 :: List.replicate zeros 0 ++ beBytes 8 (l * 8)

/-- Group bytes into big-endian 32-bit words. -/
def toWords32 : List Nat → List Nat
  | a :: b :: c :: d :: rest => (a * 16777216 + b * 65536 + c * 256 + d) :: toWords32 rest
  | _ => []

/-- Helper for `toBlocks16`; the counter only bounds the number of
steps (each step consumes at least one word, so `ws.length` suffices). -/
def toBlocks16Go : Nat → List Nat → List (List Nat)
  | 0, _ => []
  | f + 1, ws => if ws = [] then [] else ws.take 16 :: toBlocks16Go f (ws.drop 16)

/-- Group a word list into blocks of 16 words. -/
def toBlocks16 (ws : List Nat) : List (List Nat) := toBlocks16Go ws.length ws

/-- Extend the message schedule by `k` further words; the word list is
kept newest-first. -/
def extendW : Nat → List Nat → List Nat
  | 0, rws => rws
  | k + 1, rws =>
    extendW k
      (m32 (ssig1 (rws.getD 1 0) + rws.getD 6 0 + ssig0 (rws.getD 14 0) + rws.getD 15 0) :: rws)

/-- The 64-entry message schedule of one block. -/
def shaSchedule (block : List Nat) : List Nat := (extendW 48 block.reverse).reverse

/-- One round of the SHA-256 compression function on the 8-word state. -/
def compressStep (st : List Nat) (wk : Nat × Nat) : List Nat :=
  let a := st.getD 0 0
  let b := st.getD 1 0
  let c := st.getD 2 0
  let d := st.getD 3 0
  let e := st.getD 4 0
  let f := st.getD 5 0
  let g := st.getD 6 0
  let hh := st.getD 7 0
  let t1 := m32 (hh + bsig1 e + shaCh e f g + wk.2 + wk.1)
  let t2 := m32 (bsig0 a + shaMaj a b c)
  [m32 (t1 + t2), a, b, c, m32 (d + t1), e, f, g]

/-- Process one 16-word block, updating the running hash. -/
def processBlock (hs : List Nat) (block : List Nat) : List Nat :=
  let st := ((shaSchedule block).zip shaK).foldl compressStep hs
  (hs.zip st).map (fun p => m32 (p.1 + p.2))

/-- SHA-256 digest of a byte sequence, as 32 bytes. -/
def sha256Bytes (msg : List Nat) : List Nat :=
  ((toBlocks16 (toWords32 (shaPad msg))).foldl processBlock shaH0).foldr
    (fun w acc => beBytes 4 w ++ acc) []

/-- Lowercase hex digit for a nibble. -/
def hexDigit (n : Nat) : Char :=
  if n < 10 then Char.ofNat (48 + n) else Char.ofNat (87 + n)

/-- Lowercase hex string of a byte list. -/
def toHex (bytes : List Nat) : RStr :=
  bytes.foldr (fun b acc => hexDigit (b >>> 4) :: hexDigit (b % 16) :: acc) []

/-- Rust `chunk::metadata::calculate_hash`: lowercase hex SHA-256 of the
UTF-8 bytes of the text. -/
def calculateHash (text : RStr) : RStr := toHex (sha256Bytes (utf8Bytes text))

/-! ## Chunk data model (`chunk/mod.rs`, `chunk/detection.rs`)

The effect-generated fields `id` (a fresh UUID v4) and `created_at`
(wall-clock timestamp), and the unused fields `token_count` and
`custom`, are omitted from the model; no claim concerns them. -/

/-- Programming language, from `chunk/detection.rs`. -/
inductive MLanguage
  | rust | typescript | javascript | python | go | c | cpp | java | ruby | php | unknown
deriving DecidableEq, Repr

/-- Content type, from `chunk/detection.rs`. -/
inductive MContentType
  | text | markdown | code (language : MLanguage) | html | pdf | unknown
deriving DecidableEq, Repr

/-- Chunk metadata, from `chunk/mod.rs` (`ChunkMetadata`). -/
structure MChunkMetadata where
  content_type : MContentType
  language : Option MLanguage
  byte_range : Nat × Nat
  line_range : Option (Nat × Nat)
  char_count : Nat
  hash : RStr
  splitter_used : RStr
deriving DecidableEq, Repr

/-- A chunk, from `chunk/mod.rs` (`Chunk`). -/
structure MChunk where
  source_id : RStr
  position : Nat
  text : RStr
  metadata : MChunkMetadata
deriving DecidableEq, Repr

/-- Rust `Chunk::new`: fresh metadata with the character count and the
SHA-256 hash computed from the text. -/
def MChunk.new (source_id : RStr) (position : Nat) (text : RStr)
    (byte_range : Nat × Nat) (content_type : MContentType) (splitter_used : RStr) : MChunk :=
  { source_id := source_id
    position := position
    text := text
    metadata :=
      { content_type := content_type
        language := none
        byte_range := byte_range
        line_range := none
        char_count := text.length
        hash := calculateHash text
        splitter_used := splitter_used } }

/-- Chunking configuration, from `chunk/pipeline.rs` (`ChunkConfig`). -/
structure MChunkConfig where
  target_chunk_size : Nat
  max_chunk_size : Nat
  min_chunk_size : Nat
  overlap : Nat
  respect_semantics : Bool
  preserve_code_blocks : Bool
deriving DecidableEq, Repr

/-! ## Post-processing (`chunk/merging.rs`) -/

/-- Rust `should_merge`: both chunks strictly below the target size and
their combined byte length at most twice the target. -/
def shouldMerge (c1 c2 : MChunk) (cfg : MChunkConfig) : Bool :=
  let combined := utf8Len c1.text + utf8Len c2.text
  combined ≤ cfg.target_chunk_size * 2 &&
    utf8Len c1.text < cfg.target_chunk_size &&
    utf8Len c2.text < cfg.target_chunk_size

/-- Rust `merge_two_chunks`: append a newline and the second text to the
first chunk, extend the byte range and line range, and recompute the
character count.  Note that `metadata.hash` is left unchanged. -/
def mergeTwoChunks (c1 c2 : MChunk) : MChunk :=
  let text := c1.text ++ '\n' :: c2.text
  { c1 with
    text := text
    metadata :=
      { c1.metadata with
        byte_range := (c1.metadata.byte_range.1, c2.metadata.byte_range.2)
        char_count := text.length
        line_range :=
          match c1.metadata.line_range, c2.metadata.line_range with
          | some l1, some l2 => some (l1.1, l2.2)
          | _, _ => c1.metadata.line_range } }

/-- Backtrack a candidate byte index to the nearest char boundary, the
loop `while end > start && !text.is_char_boundary(end)` of
`split_oversized`. -/
def backtrackBoundary (s : RStr) (start : Nat) : Nat → Nat
  | 0 => 0
  | e + 1 =>
    if start < e + 1 && !(isCharBoundary s (e + 1)) then backtrackBoundary s start e
    else e + 1

/-- The byte index at which one iteration of the `split_oversized` loop
ends its window, starting at byte `start`. -/
def splitStepEnd (text : RStr) (cfg : MChunkConfig) (start : Nat) : Nat :=
  let len := utf8Len text
  let e0 := min (start + cfg.target_chunk_size) len
  let e1 := backtrackBoundary text start e0
  if e1 < len then
    match rfindWhitespaceB (byteSlice text start e1) with
    | some i => start + i
    | none => e1
  else e1

/-- The chunk pushed for a window `[start, e)` of `split_oversized`. -/
def mkSplitChunk (orig : MChunk) (piece : RStr) (start e position : Nat) : MChunk :=
  let base := MChunk.new orig.source_id position piece
    (orig.metadata.byte_range.1 + start, orig.metadata.byte_range.1 + e)
    orig.metadata.content_type orig.metadata.splitter_used
  { base with metadata := { base.metadata with language := orig.metadata.language } }

/-- The `while start < text.len()` loop of `split_oversized`, with
explicit fuel: `none` models non-termination within the given fuel.
The loop itself has no other exit, so a state from which the window
start never advances makes the result `none` for every fuel. -/
def splitLoop : Nat → RStr → MChunkConfig → MChunk → Nat → Nat → List MChunk → Option (List MChunk)
  | 0, _, _, _, _, _, _ => none
  | fuel + 1, text, cfg, orig, start, position, acc =>
    if start < utf8Len text then
      let e := splitStepEnd text cfg start
      let piece := rustTrim (byteSlice text start e)
      if piece = [] then splitLoop fuel text cfg orig e position acc
      else splitLoop fuel text cfg orig e (position + 1)
        (acc ++ [mkSplitChunk orig piece start e position])
    else some acc

/-- Rust `split_oversized`, fuelled. -/
def splitOversizedF (fuel : Nat) (c : MChunk) (cfg : MChunkConfig) : Option (List MChunk) :=
  splitLoop fuel c.text cfg c 0 c.position []

/-- The `while i < chunks.len()` loop of `post_process_chunks`, as
structural recursion over the remaining chunk list: the loop advances
`i` by one (recurse on the tail) or, after a merge, by two (recurse on
the tail of the tail). -/
def postLoop (fuel : Nat) (cfg : MChunkConfig) : List MChunk → Option (List MChunk)
  | [] => some []
  | [c] =>
    -- for the last chunk the undersized-skip branch does not apply
    if cfg.max_chunk_size < utf8Len c.text then splitOversizedF fuel c cfg
    else some [c]
  | c :: next :: rest2 =>
    if utf8Len c.text < cfg.min_chunk_size then postLoop fuel cfg (next :: rest2)
    else if cfg.max_chunk_size < utf8Len c.text then
      match splitOversizedF fuel c cfg with
      | none => none
      | some s =>
        match postLoop fuel cfg (next :: rest2) with
        | none => none
        | some r => some (s ++ r)
    else if shouldMerge c next cfg then
      match postLoop fuel cfg rest2 with
      | none => none
      | some r => some (mergeTwoChunks c next :: r)
    else
      match postLoop fuel cfg (next :: rest2) with
      | none => none
      | some r => some (c :: r)

/-- Rust `post_process_chunks`, fuelled: run the loop, then renumber
positions densely from 0 (`pos as u32` wraps modulo 2^32). -/
def postProcessChunksF (fuel : Nat) (chunks : List MChunk) (cfg : MChunkConfig) :
    Option (List MChunk) :=
  if chunks = [] then some chunks
  else
    (postLoop fuel cfg chunks).map fun l =>
      l.enum.map fun p => { p.2 with position := p.1 % 4294967296 }

/-! ## Parser (`parser.rs`)

`parse_file` reads the file with `fs::read_to_string` (so a successful
read yields valid UTF-8; a read failure is the `io` error path, not
modelled) and then cleans the text purely according to the
extension-derived classification.  The model takes the classification
and the raw contents; `none` models a Rust panic (reachable only in the
HTML cleaner), `Except.error` the `Binary file not supported` error. -/

/-- Content classification of `parser.rs` (`ContentType`). -/
inductive PContentType
  | markdown | html | code | plainText | unknown
deriving DecidableEq, Repr

/-- Rust `parser::ContentType::from_path`, from the lowercase-sensitive
extension match (argument: the file extension, if any). -/
def pContentTypeFromExt (ext : Option RStr) : PContentType :=
  if ext = some "md".toList ∨ ext = some "markdown".toList then .markdown
  else if ext = some "html".toList ∨ ext = some "htm".toList then .html
  else if ext = some "rs".toList ∨ ext = some "py".toList ∨ ext = some "js".toList ∨
      ext = some "ts".toList ∨ ext = some "go".toList ∨ ext = some "c".toList ∨
      ext = some "cpp".toList ∨ ext = some "java".toList ∨ ext = some "sh".toList ∨
      ext = some "yaml".toList ∨ ext = some "yml".toList ∨ ext = some "json".toList ∨
      ext = some "toml".toList then .code
  else if ext = some "txt".toList then .plainText
  else .unknown

/-- Rust `is_likely_text`: no null byte. -/
def isLikelyText (s : RStr) : Bool := !(s.contains (Char.ofNat 0))

/-- Rust `clean_markdown`: per line, drop leading `#`, trim, skip
horizontal rules and code fences, keep non-empty content followed by a
newline; finally trim. -/
def cleanMarkdown (s : RStr) : RStr :=
  rustTrim <|
    (rustLines s).foldl
      (fun acc line =>
        let trimmed := rustTrim (line.dropWhile (fun c => c = '#'))
        if ("---".toList.isPrefixOf trimmed || "```".toList.isPrefixOf trimmed ||
            "~~~".toList.isPrefixOf trimmed) then acc
        else if trimmed = [] then acc
        else acc ++ trimmed ++ ['\n'])
      []

/-- Rust `clean_code`: per line, trim, skip `//`- and `#`-led comment
lines, keep non-empty content followed by a newline; finally trim. -/
def cleanCode (s : RStr) : RStr :=
  rustTrim <|
    (rustLines s).foldl
      (fun acc line =>
        let trimmed := rustTrim line
        if ("//".toList.isPrefixOf trimmed || trimmed.head? = some '#') then acc
        else if trimmed = [] then acc
        else acc ++ trimmed ++ ['\n'])
      []

/-- One step of the `clean_html` scanner state: the flags
`(in_tag, in_script, in_style)`. -/
def cleanHtmlStep (lower : RStr) (i : Nat) (c : Char) :
    Bool × Bool × Bool → Option (Bool × Bool × Bool × Option Char)
  | (inTag, inScript, inStyle) =>
    if c = '<' then
      -- the code slices `lower[i..]` with the character index `i`,
      -- which panics unless `i` is a char boundary of `lower`
      if !(isCharBoundary lower i) then none
      else
        let tail := byteDrop lower i
        let flags :=
          if "<script".toList.isPrefixOf tail then (true, true, inStyle)
          else if "</script".toList.isPrefixOf tail then (true, false, inStyle)
          else if "<style".toList.isPrefixOf tail then (true, inScript, true)
          else if "</style".toList.isPrefixOf tail then (true, inScript, false)
          else (true, inScript, inStyle)
        some (flags.1, flags.2.1, flags.2.2, none)
    else if c = '>' then some (false, inScript, inStyle, none)
    else if !inTag && !inScript && !inStyle then some (inTag, inScript, inStyle, some c)
    else some (inTag, inScript, inStyle, none)

/-- The scanning loop of `clean_html` over `text.chars().enumerate()`. -/
def cleanHtmlLoop (lower : RStr) : RStr → Nat → Bool × Bool × Bool → RStr → Option RStr
  | [], _, _, acc => some acc
  | c :: rest, i, flags, acc =>
    match cleanHtmlStep lower i c flags with
    | none => none
    | some (t, sc, st, out) =>
      cleanHtmlLoop lower rest (i + 1) (t, sc, st)
        (match out with | some ch => acc ++ [ch] | none => acc)

/-- Rust `clean_html`: strip tags and script/style bodies, then collapse
whitespace (`split_whitespace` joined by single spaces, then trim). -/
def cleanHtml (s : RStr) : Option RStr :=
  (cleanHtmlLoop (rustToLowercase s) s 0 (false, false, false) []).map fun acc =>
    rustTrim (List.intercalate " ".toList (rustSplitWhitespace acc))

/-- Rust `parse_file`, after a successful `fs::read_to_string`:
classification-directed cleaning of the raw text. -/
def parseFile (ct : PContentType) (raw : RStr) : Option (Except Unit RStr) :=
  match ct with
  | .markdown => some (.ok (cleanMarkdown raw))
  | .html => (cleanHtml raw).map .ok
  | .code => some (.ok (cleanCode raw))
  | .plainText => some (.ok raw)
  | .unknown => if isLikelyText raw then some (.ok raw) else some (.error ())

/-! ## Snippet truncation (`rag/ask.rs`) -/

/-- Rust `MAX_SNIPPET_LENGTH`. -/
def maxSnippetLength : Nat := 150

/-- Rust `truncate_snippet`: texts of at most `max_len` bytes pass
through; longer texts are sliced at byte `max_len` (`&text[..max_len]`,
which panics — modelled as `none` — when `max_len` is not a char
boundary), then cut back to the last whitespace if any, with `"..."`
appended. -/
def truncateSnippet (text : RStr) (maxLen : Nat) : Option RStr :=
  if utf8Len text ≤ maxLen then some text
  else if !(isCharBoundary text maxLen) then none
  else
    let truncated := byteTake text maxLen
    match rfindWhitespaceB truncated with
    | some lastSpace => some (byteTake truncated lastSpace ++ "...".toList)
    | none => some (truncated ++ "...".toList)

/-! ## Exact IEEE-754 binary32 model over `ℚ`

Every `f32` value is represented by the rational it denotes; each
operation computes the exact rational result and rounds it to a 24-bit
significand, round to nearest with ties to even.  The exponent range is
idealized as unbounded (no overflow, underflow, or NaN); all concrete
values appearing in this development are far inside the binary32 normal
range, where this model coincides bit-for-bit with hardware `f32`. -/

/-- Helper for `natLog2F`: the fuel only bounds the number of halving
steps, so the argument itself is always enough. -/
def natLog2Go : Nat → Nat → Nat
  | 0, _ => 0
  | f + 1, n => if 2 ≤ n then natLog2Go f (n / 2) + 1 else 0

/-- Floor of the base-2 logarithm of a natural number (0 for inputs
below 2), as a structurally recursive computation. -/
def natLog2F (n : Nat) : Nat := natLog2Go n n

/-- Helper for `natSqrtF`: one integer Newton step, descending while it
still decreases; started from `n` itself this reaches the integer
square root. -/
def natSqrtGo : Nat → Nat → Nat → Nat
  | 0, _, x => x
  | f + 1, n, x =>
    let next := (x + n / x) / 2
    if next < x then natSqrtGo f n next else x

/-- Integer square root (floor), as a structurally recursive
computation. -/
def natSqrtF (n : Nat) : Nat := if n ≤ 1 then n else natSqrtGo n n n

/-- Floor of the base-2 logarithm of a positive rational. -/
def qlog2 (q : ℚ) : ℤ :=
  let a : ℤ := natLog2F q.num.toNat
  let b : ℤ := natLog2F q.den
  if (2 : ℚ) ^ (a - b) ≤ q then a - b else a - b - 1

/-- Round a rational to an integer, to nearest with ties to even. -/
def roundHalfEven (x : ℚ) : ℤ :=
  let n := ⌊x⌋
  let fr := x - n
  if fr < 1 / 2 then n
  else if 1 / 2 < fr then n + 1
  else if n % 2 = 0 then n else n + 1

/-- Round a positive rational to the nearest binary32 value (24-bit
significand, ties to even). -/
def froundPos (x : ℚ) : ℚ :=
  let s : ℤ := qlog2 x - 23
  (roundHalfEven (x * 2 ^ (-s)) : ℚ) * 2 ^ s

/-- Round any rational to the nearest binary32 value. -/
def fround (x : ℚ) : ℚ :=
  if x = 0 then 0 else if x < 0 then -froundPos (-x) else froundPos x

/-- Binary32 addition. -/
def fadd (a b : ℚ) : ℚ := fround (a + b)

/-- Binary32 multiplication. -/
def fmul (a b : ℚ) : ℚ := fround (a * b)

/-- Binary32 division.  Division by zero produces an infinity in IEEE
arithmetic; it is unreachable in the verified code paths (all divisions
are guarded by a non-zero test), and the model returns 0 there. -/
def fdiv (a b : ℚ) : ℚ := if b = 0 then 0 else fround (a / b)

/-- Binary32 square root, correctly rounded (ties to even).  Negative
arguments would produce NaN and are unreachable in the verified code
paths; the model returns 0 for them and for 0. -/
def fsqrt (x : ℚ) : ℚ :=
  if x ≤ 0 then 0
  else
    let s : ℤ := Int.fdiv (qlog2 x) 2 - 23
    let y : ℚ := x * 2 ^ (-2 * s)
    let m0 : ℕ := natSqrtF ⌊y⌋.toNat
    let mid : ℚ := ((2 * m0 + 1 : ℕ) : ℚ) ^ 2 / 4
    let m : ℕ :=
      if y < mid then m0
      else if mid < y then m0 + 1
      else if m0 % 2 = 0 then m0 else m0 + 1
    (m : ℚ) * 2 ^ s

/-- Rust `Iterator::sum::<f32>()`: left fold of binary32 addition
starting from `0.0`. -/
def fsumF32 (l : List ℚ) : ℚ := l.foldl fadd 0

/-! ## Trigram embedding provider (`embeddings/providers/trigram.rs`)

`generate_trigram_embedding` builds a `HashMap` of word frequencies and
then iterates it.  `std::collections::HashMap` iteration order is
unspecified (and randomized per map instance), so the model takes the
iteration order as an explicit argument: a list of `(word, frequency)`
pairs that is some permutation of the word-frequency map entries. -/

/-- The stop-word set of `generate_trigram_embedding`. -/
def trigramStopWords : List RStr :=
  ["the", "is", "at", "which", "on", "a", "an", "as", "are", "was", "were", "for", "to",
   "of", "in", "and", "or", "but", "with", "by", "from", "this", "that", "be", "have",
   "has", "had", "it", "its", "their", "they", "them"].map String.toList

/-- The filtered word list: lowercase, split on whitespace, drop stop
words and words of at most 2 bytes. -/
def trigramWords (text : RStr) : List RStr :=
  (rustSplitWhitespace (rustToLowercase text)).filter
    (fun w => !(trigramStopWords.contains w) && decide (2 < utf8Len w))

/-- Count an occurrence of `w`, keeping first-seen order (the entry set
of the Rust `word_freq` map). -/
def bumpFreq : List (RStr × Nat) → RStr → List (RStr × Nat)
  | [], w => [(w, 1)]
  | (x, n) :: rest, w =>
    if x = w then (x, n + 1) :: rest else (x, n) :: bumpFreq rest w

/-- The word-frequency map of the text, as its entry list in first-seen
order.  Rust iterates these entries in an unspecified order. -/
def wordFreqList (text : RStr) : List (RStr × Nat) :=
  (trigramWords text).foldl bumpFreq []

/-- Rust wrapping byte hash: fold `acc * mult + byte` modulo 2^64. -/
def hashFoldBytes (mult : Nat) (bytes : List Nat) : Nat :=
  bytes.foldl (fun acc b => (acc * mult + b) % 18446744073709551616) 0

/-- The character trigrams of a word, from the loop over
`0..chars.len().saturating_sub(2)` (the `unwrap_or(' ')` default is kept
for indices out of range, as in the code, though it never fires). -/
def trigramsOf (w : RStr) : List RStr :=
  (List.range (w.length - 2)).map fun i =>
    [w.getD i ' ', w.getD (i + 1) ' ', w.getD (i + 2) ' ']

/-- Accumulate `x` into dimension `i` with binary32 addition
(`embedding[i] += x`). -/
def addAtF32 (v : List ℚ) (i : Nat) (x : ℚ) : List ℚ :=
  v.set i (fadd (v.getD i 0) x)

/-- Process one `(word, freq)` entry: add `sqrt(freq as f32)` at the
hashed dimension of each trigram, then `freq as f32` at the hashed
dimension of the word (`freq` is exact in `f32` for all realizable
counts). -/
def applyWordF32 (dims : Nat) (v : List ℚ) (wf : RStr × Nat) : List ℚ :=
  let v1 := (trigramsOf wf.1).foldl
    (fun acc tri => addAtF32 acc (hashFoldBytes 37 (utf8Bytes tri) % dims) (fsqrt (wf.2 : ℚ)))
    v
  addAtF32 v1 (hashFoldBytes 31 (utf8Bytes wf.1) % dims) ((wf.2 : ℚ))

/-- Rust `generate_trigram_embedding`, given the `word_freq` iteration
order: accumulate all contributions, then normalize to unit length when
the norm is positive. -/
def generateTrigramEmbedding (dims : Nat) (order : List (RStr × Nat)) : List ℚ :=
  let emb := order.foldl (applyWordF32 dims) (List.replicate dims 0)
  let norm := fsqrt (fsumF32 (emb.map fun x => fmul x x))
  if 0 < norm then emb.map (fun v => fdiv v norm) else emb

/-- The list of `(dimension, addend)` increments contributed by one
word entry, in program order. -/
def wordIncrements (dims : Nat) (wf : RStr × Nat) : List (Nat × ℚ) :=
  ((trigramsOf wf.1).map fun tri =>
    (hashFoldBytes 37 (utf8Bytes tri) % dims, fsqrt (wf.2 : ℚ))) ++
  [(hashFoldBytes 31 (utf8Bytes wf.1) % dims, (wf.2 : ℚ))]

/-- Apply increments with exact rational addition (the idealization of
`+=` without rounding). -/
def applyIncsExact (v : List ℚ) (incs : List (Nat × ℚ)) : List ℚ :=
  incs.foldl (fun acc p => acc.set p.1 (acc.getD p.1 0 + p.2)) v

/-- The accumulation phase of `generate_trigram_embedding` under exact
(associative, commutative) addition — the idealization against which the
order-sensitivity of the binary32 accumulation is measured. -/
def trigramAccumExact (dims : Nat) (order : List (RStr × Nat)) : List ℚ :=
  order.foldl (fun v wf => applyIncsExact v (wordIncrements dims wf)) (List.replicate dims 0)

/-! ## Vector index (`lancedb_index.rs`)

`LanceDbIndex` couples a persistent table (the rows, kept by LanceDB on
disk) with an in-memory `HashSet<String>` of source ids.  The model
keeps the rows as a list and the set as a duplicate-free list in
insertion order.  External I/O (the LanceDB connection and `table.add`)
is assumed to succeed; the endogenous validation of `chunk_to_batch` is
modelled exactly.  The nearest-neighbour pre-selection done by
`query().nearest_to(..).limit(top_k)` is a LanceDB call; `searchModel`
therefore takes the retrieved row list as an argument, constrained in
the theorems by LanceDB's contract (rows of the table, at most `top_k`
of them). -/

/-- A stored chunk, from `types.rs` (`KnowledgeChunk`); `metadata` is
the serialized JSON blob, opaque to the index logic. -/
structure MKnowledgeChunk where
  id : RStr
  source_id : RStr
  position : Nat
  text : RStr
  embedding : Option (List ℚ)
  metadata : RStr
deriving DecidableEq, Repr

/-- The state of a `LanceDbIndex` handle. -/
structure MLanceIdx where
  rows : List MKnowledgeChunk
  sourceIds : List RStr
  embeddingDim : Nat
deriving DecidableEq, Repr

/-- Rust `LanceDbIndex::new`: open (or create) the table at a path —
the persisted rows survive — and start with an empty in-memory
`source_ids` set. -/
def lanceNew (existingRows : List MKnowledgeChunk) (dim : Nat) : MLanceIdx :=
  { rows := existingRows, sourceIds := [], embeddingDim := dim }

/-- `HashSet::insert` on the insertion-ordered duplicate-free list. -/
def insertSourceId (ids : List RStr) (s : RStr) : List RStr :=
  if ids.contains s then ids else ids ++ [s]

/-- The validation performed by `chunk_to_batch`: an embedding must be
present and have exactly the index dimension. -/
def chunkToBatchOk (dim : Nat) (c : MKnowledgeChunk) : Bool :=
  match c.embedding with
  | some e => e.length = dim
  | none => false

/-- Rust `upsert_chunks` (with the external `table.add` succeeding):
empty input returns at once; otherwise all source ids are inserted into
the in-memory set first, then every chunk is converted — a conversion
failure aborts with an error (`false`) after the set was already
updated — and on success the rows are appended in input order. -/
def upsertChunks (idx : MLanceIdx) (chunks : List MKnowledgeChunk) : MLanceIdx × Bool :=
  if chunks = [] then (idx, true)
  else
    let ids := chunks.foldl (fun acc c => insertSourceId acc c.source_id) idx.sourceIds
    if chunks.all (chunkToBatchOk idx.embeddingDim) then
      ({ idx with sourceIds := ids, rows := idx.rows ++ chunks }, true)
    else
      ({ idx with sourceIds := ids }, false)

/-- Rust `stats`: the in-memory source-id set size and the table row
count. -/
def lanceStats (idx : MLanceIdx) : Nat × Nat := (idx.sourceIds.length, idx.rows.length)

/-- Rust `reset`: delete all rows, clear the source-id set. -/
def lanceReset (idx : MLanceIdx) : MLanceIdx := { idx with rows := [], sourceIds := [] }

/-- Rust `cosine_similarity`, in binary32 arithmetic: zero on length
mismatch or when either norm is zero, otherwise
`dot / (norm_a * norm_b)`. -/
def cosineSimilarity (a b : List ℚ) : ℚ :=
  if a.length ≠ b.length then 0
  else
    let dot := fsumF32 (List.zipWith fmul a b)
    let na := fsqrt (fsumF32 (a.map fun x => fmul x x))
    let nb := fsqrt (fsumF32 (b.map fun x => fmul x x))
    if na = 0 ∨ nb = 0 then 0 else fdiv dot (fmul na nb)

/-- Score one retrieved row against the query (a row without an
embedding scores `0.0`, as in the code). -/
def scoreRow (q : List ℚ) (c : MKnowledgeChunk) : MKnowledgeChunk × ℚ :=
  (c, match c.embedding with
      | some e => cosineSimilarity q e
      | none => 0)

/-- The descending-score comparator of `search`
(`b.1.partial_cmp(&a.1)`); total on the model's rationals. -/
def scoreDesc (a b : MKnowledgeChunk × ℚ) : Bool := decide (b.2 ≤ a.2)

/-- Rust `search` given the rows returned by the LanceDB nearest-query:
reject a dimension mismatch, score every retrieved row against the
query with `cosine_similarity`, and sort by descending score (Rust
`sort_by` is a stable merge sort, modelled by `List.mergeSort`). -/
def searchModel (idx : MLanceIdx) (q : List ℚ) (retrieved : List MKnowledgeChunk) :
    Except Unit (List (MKnowledgeChunk × ℚ)) :=
  if q.length ≠ idx.embeddingDim then .error ()
  else .ok ((retrieved.map (scoreRow q)).mergeSort scoreDesc)

/-- States reachable from an opened handle by successful batch upserts;
`sess` is the concatenation of all chunks upserted through this handle
since it was opened. -/
inductive LanceReach (init : List MKnowledgeChunk) (dim : Nat) : MLanceIdx → List MKnowledgeChunk → Prop
  | base : LanceReach init dim (lanceNew init dim) []
  | step {idx sess chunks} : LanceReach init dim idx sess →
      (upsertChunks idx chunks).2 = true →
      LanceReach init dim (upsertChunks idx chunks).1 (sess ++ chunks)

/-! ## Ingest orchestrator (`lib.rs`, `learn_with_progress` phase 2, and
`rag/sources.rs`)

The model covers the batch-processing loop: per input file it receives
the outcome of `parse_and_chunk_file` (an error, or the parsed pending
entry), maintains the `pending_chunks` buffer, and drives
`process_batch`.  The outcomes of the two fallible external calls per
batch — `embed_chunks` (consulted only when the batch has at least one
chunk, because `embed_texts` returns early on an empty text list) and
`upsert_chunks` (its internal `table.add`, likewise skipped for an
empty chunk list) — are supplied by an oracle indexed by call count.
`track_source` appends to `sources.jsonl`, modelled as a record list;
its own I/O is assumed to succeed.  `flush` and the final config save
are modelled as succeeding. -/

/-- The per-file result of `parse_and_chunk_file`:
`(source_id, chunks, path, byte_count)`. -/
structure MPendingFile where
  sourceId : RStr
  chunks : List MChunk
  path : RStr
  bytes : Nat
deriving DecidableEq, Repr

/-- One line of `sources.jsonl` (`KnowledgeSource`; the constant
`source_type = "file"` and the wall-clock `indexed_at` are omitted). -/
structure MSourceRec where
  sourceId : RStr
  path : RStr
  chunkCount : Nat
  byteCount : Nat
deriving DecidableEq, Repr

/-- Outcomes of the external embed and upsert calls, indexed by call
count. -/
structure MLearnOracle where
  embedOk : Nat → Bool
  upsertOk : Nat → Bool

/-- The mutable state threaded through the learn loop. -/
structure MLearnSt where
  pending : List MPendingFile
  log : List MSourceRec
  indexed : List MChunk
  embedCalls : Nat
  upsertCalls : Nat
deriving Repr

/-- The source-tracking drain at the end of a successful
`process_batch`: append one record per pending file, in order, and
return `(sources, chunks, bytes)` of the batch. -/
def trackBatch (st : MLearnSt) : MLearnSt × Except Unit (Nat × Nat × Nat) :=
  let recs := st.pending.map fun p => MSourceRec.mk p.sourceId p.path p.chunks.length p.bytes
  let sc := st.pending.length
  let cc := (st.pending.map (fun p => p.chunks.length)).sum
  let bc := (st.pending.map (fun p => p.bytes)).sum
  ({ st with log := st.log ++ recs, pending := [] }, .ok (sc, cc, bc))

/-- Rust `process_batch`: empty pending returns `(0,0,0)`; otherwise
embed all chunks of the batch in one call (no call happens when there
are no chunks), upsert them in one call (likewise skipped when empty),
and only then track every pending file.  On an embed or upsert failure
the error is returned and `pending` is left untouched. -/
def processBatchModel (orc : MLearnOracle) (st : MLearnSt) :
    MLearnSt × Except Unit (Nat × Nat × Nat) :=
  if st.pending = [] then (st, .ok (0, 0, 0))
  else
    let allChunks := st.pending.foldr (fun p acc => p.chunks ++ acc) []
    if allChunks = [] then trackBatch st
    else
      let st1 := { st with embedCalls := st.embedCalls + 1 }
      if !orc.embedOk st.embedCalls then (st1, .error ())
      else
        let st2 := { st1 with upsertCalls := st1.upsertCalls + 1 }
        if !orc.upsertOk st1.upsertCalls then (st2, .error ())
        else trackBatch { st2 with indexed := st2.indexed ++ allChunks }

/-- The accumulated `LearnStats` counters. -/
structure MLearnStats where
  sourcesCount : Nat
  chunksCount : Nat
  bytesProcessed : Nat
deriving DecidableEq, Repr

/-- Rust `BATCH_SIZE`. -/
def learnBatchSize : Nat := 10

/-- The per-file loop of `learn_with_progress`: a parse failure is
logged and skipped (note: no batch is attempted in that arm, even for
the last file); a parse success pushes the pending entry and, when the
buffer reaches `BATCH_SIZE` files or this is the last file, runs
`process_batch`, adding its counters on success and merely logging on
failure. -/
def learnGo (orc : MLearnOracle) :
    List (Except Unit MPendingFile) → Nat → Nat → MLearnSt × MLearnStats →
    MLearnSt × MLearnStats
  | [], _, _, s => s
  | f :: rest, idx, total, (st, stats) =>
    match f with
    | .error _ => learnGo orc rest (idx + 1) total (st, stats)
    | .ok pf =>
      let st := { st with pending := st.pending ++ [pf] }
      if learnBatchSize ≤ st.pending.length ∨ idx = total - 1 then
        match processBatchModel orc st with
        | (st2, .ok (a, b, c)) =>
          learnGo orc rest (idx + 1) total
            (st2, ⟨stats.sourcesCount + a, stats.chunksCount + b, stats.bytesProcessed + c⟩)
        | (st2, .error _) => learnGo orc rest (idx + 1) total (st2, stats)
      else learnGo orc rest (idx + 1) total (st, stats)

/-- Rust `learn_with_progress`, phase 2 onward: run the loop over the
parse outcomes, flush (assumed to succeed), and return the stats.  The
loop itself never propagates a batch error, so the overall result is
always `Ok`. -/
def learnModel (orc : MLearnOracle) (files : List (Except Unit MPendingFile)) :
    MLearnSt × Except Unit MLearnStats :=
  let s := learnGo orc files 0 files.length (⟨[], [], [], 0, 0⟩, ⟨0, 0, 0⟩)
  (s.1, .ok s.2)

/-- The raw pieces produced by the external `text_splitter` crate are
substrings of the input; `TextSplitter::split` (`chunk/splitters/text.rs`)
enumerates them, skips the ones that trim to empty, and builds chunks
with a running byte offset over the kept pieces. -/
def textSplitterGo (sourceId : RStr) : List (Nat × RStr) → Nat → List MChunk
  | [], _ => []
  | (pos, piece) :: rest, off =>
    if rustTrim piece = [] then textSplitterGo sourceId rest off
    else
      MChunk.new sourceId pos piece (off, off + utf8Len piece) .text "text-splitter".toList ::
        textSplitterGo sourceId rest (off + utf8Len piece)

/-- Rust `TextSplitter::split`, given the raw pieces returned by the
external `text_splitter::TextSplitter::chunks` iterator. -/
def textSplitterSplit (rawPieces : List RStr) (sourceId : RStr) : List MChunk :=
  textSplitterGo sourceId rawPieces.enum 0

/-! ## Concrete scenario instances used by the claim theorems -/

/-- The configuration used in the C2 merge scenario. -/
def cfgHash : MChunkConfig :=
  { target_chunk_size := 10, max_chunk_size := 20, min_chunk_size := 0,
    overlap := 0, respect_semantics := true, preserve_code_blocks := true }

/-- The two adjacent undersized chunks of the C2 scenario, built by
`Chunk::new` so their hashes are correct at creation. -/
def chunkA : MChunk := MChunk.new "src".toList 0 "a".toList (0, 1) .text "text-splitter".toList

/-- Second chunk of the C2 scenario. -/
def chunkB : MChunk := MChunk.new "src".toList 1 "b".toList (1, 2) .text "text-splitter".toList

/-- The configuration of the C10 scenario (`learn` uses
`max = 2 * target`, `min = target / 10`; any `target > 0` with an
oversized input reproduces the behaviour — here `target = 100`,
`max = 150`). -/
def cfgStuck : MChunkConfig :=
  { target_chunk_size := 100, max_chunk_size := 150, min_chunk_size := 1,
    overlap := 0, respect_semantics := true, preserve_code_blocks := true }

/-- The C10 text: 100 `'a'`s, one space, 200 `'b'`s (301 bytes).  The
first split window is `[0,100)` (no whitespace, full window); the
second window starts at byte 100, which holds the only whitespace in
`[100,200)`, so `rfind` returns relative offset 0 and the window end is
set back to the window start. -/
def textStuck : RStr := List.replicate 100 'a' ++ ' ' :: List.replicate 200 'b'

/-- The oversized chunk fed to `split_oversized` in the C10 scenario. -/
def chunkStuck : MChunk :=
  MChunk.new "src".toList 0 textStuck (0, 301) .text "text-splitter".toList

/-- A configuration with `max_chunk_size < 2 * target_chunk_size - 1`,
as permitted by `ChunkConfig` (the claim quantifies over every
configuration). -/
def cfgOver : MChunkConfig :=
  { target_chunk_size := 100, max_chunk_size := 150, min_chunk_size := 0,
    overlap := 0, respect_semantics := true, preserve_code_blocks := true }

/-- A 99-byte chunk (strictly below the target). -/
def chunkA99 : MChunk :=
  MChunk.new "src".toList 0 (List.replicate 99 'a') (0, 99) .text "text-splitter".toList

/-- A second 99-byte chunk. -/
def chunkB99 : MChunk :=
  MChunk.new "src".toList 1 (List.replicate 99 'b') (99, 198) .text "text-splitter".toList

/-- The C9 text: 149 `'a'`s followed by `'é'` (151 UTF-8 bytes, and
byte 150 falls inside the two-byte encoding of `'é'`). -/
def snippetPanicText : RStr := List.replicate 149 'a' ++ ['é']

/-- The C6 text.  Its word-frequency map is
`abc ↦ 1, abe ↦ 2, abg ↦ 3, abd ↦ 1`; the trigram and word hashes of
`abc`, `abe`, `abg` all land in dimension 0 (mod 2) and those of `abd`
in dimension 1, so dimension 0 accumulates the binary32 values
`1, 1, sqrt 2, 2, sqrt 3, 3` in whatever order the `HashMap` iterates
the words. -/
def trigramText : RStr := "abc abe abe abg abg abg abd".toList

/-- The first-seen entry order of the C6 word-frequency map. -/
def trigramOrder1 : List (RStr × Nat) :=
  [("abc".toList, 1), ("abe".toList, 2), ("abg".toList, 3), ("abd".toList, 1)]

/-- Another enumeration of the same map (`abe` and `abg` swapped). -/
def trigramOrder2 : List (RStr × Nat) :=
  [("abc".toList, 1), ("abg".toList, 3), ("abe".toList, 2), ("abd".toList, 1)]

/-- The single stored chunk of the C4 scenario. -/
def kcOne : MKnowledgeChunk :=
  { id := "id1".toList, source_id := "src1".toList, position := 0,
    text := "t".toList, embedding := some [1], metadata := [] }

/-- The index state after one session upserting `kcOne` through a fresh
handle. -/
def idxSession1 : MLanceIdx := (upsertChunks (lanceNew [] 1) [kcOne]).1

/-- The same on-disk table opened by a new handle. -/
def idxReopened : MLanceIdx := lanceNew idxSession1.rows 1

/-- The stored chunk of the C5 witness scenario (dimension 2). -/
def kcTwo : MKnowledgeChunk :=
  { id := "id2".toList, source_id := "src2".toList, position := 0,
    text := "t".toList, embedding := some [1, 0], metadata := [] }

/-- The witness index: a fresh handle of dimension 2 after one
successful upsert of `kcTwo`. -/
def idxTwo : MLanceIdx := (upsertChunks (lanceNew [] 2) [kcTwo]).1

/-- A one-chunk parse result for file `i` of the C1 scenario. -/
def mkFileC1 (i : Nat) : Except Unit MPendingFile :=
  .ok
    { sourceId := [Char.ofNat (65 + i)]
      chunks := [{ source_id := [Char.ofNat (65 + i)], position := 0, text := "x".toList,
                   metadata :=
                     { content_type := .text, language := none, byte_range := (0, 1),
                       line_range := none, char_count := 1, hash := [],
                       splitter_used := "text-splitter".toList } }]
      path := [Char.ofNat (65 + i)]
      bytes := 1 }

/-- Eleven parseable one-chunk files (two batches: 10 + 1). -/
def filesEleven : List (Except Unit MPendingFile) := (List.range 11).map mkFileC1

/-- An oracle whose first embed call fails and whose later calls
succeed. -/
def orcFirstEmbedFails : MLearnOracle := ⟨fun n => n ≠ 0, fun _ => true⟩

/-- The parse outcome of an empty `.txt` file: `parse_file` succeeds
with empty text, and the chunk pipeline produces zero chunks, so the
pending entry carries no chunks and zero bytes. -/
def emptyPF : MPendingFile :=
  { sourceId := "s".toList, chunks := [], path := "empty.txt".toList, bytes := 0 }

/-- An oracle failing every external call. -/
def orcAllFail : MLearnOracle := ⟨fun _ => false, fun _ => false⟩

/-! ## Basic lemmas about the string model -/

theorem utf8Len_nil : utf8Len [] = 0 := rfl

theorem utf8Len_cons (c : Char) (s : RStr) : utf8Len (c :: s) = c.utf8Size + utf8Len s := by
  simp [utf8Len]

theorem utf8Len_append (a b : RStr) : utf8Len (a ++ b) = utf8Len a + utf8Len b := by
  simp [utf8Len]

theorem utf8Len_reverse (s : RStr) : utf8Len s.reverse = utf8Len s := by
  simp [utf8Len, List.map_reverse, List.sum_reverse]

theorem utf8Len_dropWhile_le (p : Char → Bool) (s : RStr) :
    utf8Len (s.dropWhile p) ≤ utf8Len s := by
  induction s with
  | nil => simp [List.dropWhile]
  | cons c rest ih =>
    by_cases h : p c
    · simp only [List.dropWhile, h]
      have := utf8Len_cons c rest
      omega
    · simp [List.dropWhile, h]

theorem utf8Len_rustTrim_le (s : RStr) : utf8Len (rustTrim s) ≤ utf8Len s := by
  unfold rustTrim
  calc utf8Len ((s.dropWhile rustIsWhitespace).reverse.dropWhile rustIsWhitespace).reverse
      = utf8Len ((s.dropWhile rustIsWhitespace).reverse.dropWhile rustIsWhitespace) :=
        utf8Len_reverse _
    _ ≤ utf8Len (s.dropWhile rustIsWhitespace).reverse := utf8Len_dropWhile_le _ _
    _ = utf8Len (s.dropWhile rustIsWhitespace) := utf8Len_reverse _
    _ ≤ utf8Len s := utf8Len_dropWhile_le _ _

theorem utf8Len_byteTake_le (s : RStr) (n : Nat) : utf8Len (byteTake s n) ≤ n := by
  induction s generalizing n with
  | nil => simp [byteTake, utf8Len]
  | cons c rest ih =>
    simp only [byteTake]
    split
    · rename_i h
      have h2 := ih (n - c.utf8Size)
      rw [utf8Len_cons]
      omega
    · simp [utf8Len]

theorem utf8Len_byteSlice_le (s : RStr) (a b : Nat) :
    utf8Len (byteSlice s a b) ≤ b - a := utf8Len_byteTake_le _ _

theorem rfindWhitespaceBAux_lt (s : RStr) :
    ∀ (off : Nat) (best : Option Nat) (i : Nat),
      (∀ j, best = some j → j < off) →
      rfindWhitespaceBAux s off best = some i → i < off + utf8Len s := by
  induction s with
  | nil =>
    intro off best i hbest h
    simp only [rfindWhitespaceBAux] at h
    have := hbest i h
    omega
  | cons c rest ih =>
    intro off best i hbest h
    simp only [rfindWhitespaceBAux] at h
    have hpos := Char.utf8Size_pos c
    have hnext : ∀ j, (if rustIsWhitespace c then some off else best) = some j →
        j < off + c.utf8Size := by
      intro j hj
      split at hj
      · cases hj; omega
      · have := hbest j hj; omega
    have := ih (off + c.utf8Size) _ i hnext h
    rw [utf8Len_cons]
    omega

theorem rfindWhitespaceB_lt (s : RStr) (i : Nat) (h : rfindWhitespaceB s = some i) :
    i < utf8Len s := by
  have := rfindWhitespaceBAux_lt s 0 none i (by intro j hj; cases hj) h
  omega

theorem backtrackBoundary_le (s : RStr) (start : Nat) : ∀ e, backtrackBoundary s start e ≤ e := by
  intro e
  induction e with
  | zero => simp [backtrackBoundary]
  | succ e ih =>
    simp only [backtrackBoundary]
    split
    · omega
    · exact Nat.le_refl _

theorem splitStepEnd_le (text : RStr) (cfg : MChunkConfig) (start : Nat)
    (hstart : start < utf8Len text) :
    splitStepEnd text cfg start ≤ start + cfg.target_chunk_size := by
  have hs0 : start ≤ min (start + cfg.target_chunk_size) (utf8Len text) :=
    Nat.le_min.mpr ⟨Nat.le_add_right start _, Nat.le_of_lt hstart⟩
  have he0 : min (start + cfg.target_chunk_size) (utf8Len text) ≤
      start + cfg.target_chunk_size := Nat.min_le_left _ _
  have hbt := backtrackBoundary_le text start
    (min (start + cfg.target_chunk_size) (utf8Len text))
  simp only [splitStepEnd]
  split
  · split
    · rename_i i hi
      have hlen := rfindWhitespaceB_lt _ i hi
      have hsl := utf8Len_byteSlice_le text start
        (backtrackBoundary text start (min (start + cfg.target_chunk_size) (utf8Len text)))
      omega
    · omega
  · omega

/-! ## C2: chunk hash after merging -/

set_option maxRecDepth 8000 in
/-- C2, behaviour at the failing input: post-processing merges the two
chunks into one with text `"a\nb"`, but its `metadata.hash` is still the
SHA-256 of `"a"` — the hash of the pre-merge first chunk — and differs
from the SHA-256 of the merged text.  This contradicts both the spec
(`chunk.hash == SHA256(chunk.text)`) and the `ChunkMetadata.hash` field
documentation (`SHA-256 hash of chunk text`): `merge_two_chunks`
recomputes `char_count` and the ranges but never the hash. -/
theorem C2_merged_chunk_hash_stale :
    postProcessChunksF 4 [chunkA, chunkB] cfgHash = some [mergeTwoChunks chunkA chunkB] ∧
    (mergeTwoChunks chunkA chunkB).text = "a\nb".toList ∧
    (mergeTwoChunks chunkA chunkB).metadata.hash = calculateHash "a".toList ∧
    (mergeTwoChunks chunkA chunkB).metadata.hash ≠ calculateHash "a\nb".toList := by
  decide

/-! ## C10: termination of post-processing -/

set_option maxRecDepth 4000 in
/-- From window start 100 the `split_oversized` loop never advances:
the produced piece trims to empty and `start = end = 100` forever, for
every fuel. -/
theorem splitLoop_stuck : ∀ fuel pos acc,
    splitLoop fuel textStuck cfgStuck chunkStuck 100 pos acc = none := by
  intro fuel
  induction fuel with
  | zero => intro pos acc; rfl
  | succ n ih =>
    intro pos acc
    have h1 : 100 < utf8Len textStuck := by decide
    have h2 : splitStepEnd textStuck cfgStuck 100 = 100 := by decide
    have h3 : rustTrim (byteSlice textStuck 100 100) = [] := by decide
    simp only [splitLoop, if_pos h1, h2, h3, if_pos rfl]
    exact ih pos acc

set_option maxRecDepth 4000 in
/-- C10, behaviour at the failing input: on a 301-byte chunk whose only
whitespace in the second window sits at that window's first byte,
`split_oversized` — and with it `post_process_chunks` — never
terminates (the model returns `none` for every fuel): the window start
stops advancing because `end` is set back to `start + 0` at the
whitespace found at relative offset 0, producing an empty piece and
leaving `start` unchanged.  This refutes the claim that the loop always
makes progress. -/
theorem C10_split_oversized_diverges :
    ∀ fuel : Nat, splitOversizedF fuel chunkStuck cfgStuck = none ∧
      postProcessChunksF fuel [chunkStuck] cfgStuck = none := by
  intro fuel
  have hsplit : splitOversizedF fuel chunkStuck cfgStuck = none := by
    match fuel with
    | 0 => rfl
    | n + 1 =>
      have h1 : 0 < utf8Len textStuck := by decide
      have h2 : splitStepEnd textStuck cfgStuck 0 = 100 := by decide
      have h3 : ¬(rustTrim (byteSlice textStuck 0 100) = []) := by decide
      have htext : chunkStuck.text = textStuck := rfl
      have hpos : chunkStuck.position = 0 := rfl
      simp only [splitOversizedF, htext, hpos, splitLoop, if_pos h1, h2, if_neg h3]
      exact splitLoop_stuck n 1 _
  refine ⟨hsplit, ?_⟩
  have hne : ([chunkStuck] : List MChunk) ≠ [] := by simp
  have hbig : cfgStuck.max_chunk_size < utf8Len chunkStuck.text := by decide
  simp only [postProcessChunksF, if_neg hne, postLoop, if_pos hbig, hsplit]
  rfl

/-! ## C3: size bound after post-processing -/

/-- Every piece pushed by the `split_oversized` loop has at most
`target_chunk_size` bytes: the window end never exceeds
`start + target_chunk_size`, and trimming only shrinks the slice. -/
theorem splitLoop_bound (cfg : MChunkConfig) :
    ∀ (fuel : Nat) (text : RStr) (orig : MChunk) (start pos : Nat)
      (acc res : List MChunk),
      (∀ c ∈ acc, utf8Len c.text ≤ cfg.target_chunk_size) →
      splitLoop fuel text cfg orig start pos acc = some res →
      ∀ c ∈ res, utf8Len c.text ≤ cfg.target_chunk_size := by
  intro fuel
  induction fuel with
  | zero => intro text orig start pos acc res _ h; cases h
  | succ n ih =>
    intro text orig start pos acc res hacc h
    simp only [splitLoop] at h
    split at h
    · rename_i hstart
      split at h
      · exact ih text orig _ pos acc res hacc h
      · refine ih text orig _ (pos + 1) _ res ?_ h
        intro c hc
        rcases List.mem_append.mp hc with hmem | hmem
        · exact hacc c hmem
        · have hc1 : c = mkSplitChunk orig
              (rustTrim (byteSlice text start (splitStepEnd text cfg start)))
              start (splitStepEnd text cfg start) pos := by
            simpa using hmem
          subst hc1
          have htext : (mkSplitChunk orig
              (rustTrim (byteSlice text start (splitStepEnd text cfg start)))
              start (splitStepEnd text cfg start) pos).text =
              rustTrim (byteSlice text start (splitStepEnd text cfg start)) := rfl
          rw [htext]
          have h1 := utf8Len_rustTrim_le (byteSlice text start (splitStepEnd text cfg start))
          have h2 := utf8Len_byteSlice_le text start (splitStepEnd text cfg start)
          have h3 := splitStepEnd_le text cfg start hstart
          omega
    · cases h
      exact hacc

/-- A merge permitted by `should_merge` yields a text of at most
`2 * target_chunk_size - 1` bytes (both parts are strictly below the
target and the joining newline is one byte). -/
theorem mergeTwoChunks_bound (c1 c2 : MChunk) (cfg : MChunkConfig)
    (hm : shouldMerge c1 c2 cfg = true) :
    utf8Len (mergeTwoChunks c1 c2).text ≤ 2 * cfg.target_chunk_size - 1 := by
  simp only [shouldMerge, Bool.and_eq_true, decide_eq_true_eq] at hm
  obtain ⟨⟨_, h1⟩, h2⟩ := hm
  have htext : (mergeTwoChunks c1 c2).text = c1.text ++ '\n' :: c2.text := rfl
  rw [htext, utf8Len_append, utf8Len_cons]
  have hnl : ('\n').utf8Size = 1 := rfl
  omega

/-- C3 (amended): every chunk surviving the `post_process_chunks` loop
is bounded by `max (max_chunk_size) (max (target_chunk_size)
(2 * target_chunk_size - 1))` bytes — pass-through chunks by
`max_chunk_size`, split pieces by `target_chunk_size`, merged chunks by
`2 * target_chunk_size - 1`.  The `max_chunk_size` ceiling alone does
not hold for merged chunks (see the counterexample). -/
theorem postLoop_bound (fuel : Nat) (cfg : MChunkConfig) (l : List MChunk) :
    ∀ out, postLoop fuel cfg l = some out → ∀ c ∈ out,
      utf8Len c.text ≤
        max cfg.max_chunk_size (max cfg.target_chunk_size (2 * cfg.target_chunk_size - 1)) := by
  induction l using postLoop.induct fuel cfg with
  | case1 =>
    intro out h c hc
    cases h
    cases hc
  | case2 c hbig =>
    intro out h c' hc'
    simp only [postLoop, if_pos hbig] at h
    have := splitLoop_bound cfg fuel c.text c 0 c.position [] out (by intro x hx; cases hx) h
    have hb := this c' hc'
    omega
  | case3 c hbig =>
    intro out h c' hc'
    simp only [postLoop, if_neg hbig] at h
    cases h
    have hc1 : c' = c := by simpa using hc'
    subst hc1
    omega
  | case4 c next rest2 hsmall ih =>
    intro out h c' hc'
    simp only [postLoop, if_pos hsmall] at h
    exact ih out h c' hc'
  | case5 c next rest2 hsmall hbig hnone =>
    intro out h c' hc'
    simp only [postLoop, if_neg hsmall, if_pos hbig, hnone] at h
    cases h
  | case6 c next rest2 hsmall hbig r hr hnone ih =>
    intro out h c' hc'
    simp only [postLoop, if_neg hsmall, if_pos hbig, hr, hnone] at h
    cases h
  | case7 c next rest2 hsmall hbig r hr r2 hr2 ih =>
    intro out h c' hc'
    simp only [postLoop, if_neg hsmall, if_pos hbig, hr, hr2] at h
    cases h
    rcases List.mem_append.mp hc' with hmem | hmem
    · have := splitLoop_bound cfg fuel c.text c 0 c.position [] r
        (by intro x hx; cases hx) hr c' hmem
      omega
    · exact ih r2 hr2 c' hmem
  | case8 c next rest2 hsmall hbig hm hnone ih =>
    intro out h c' hc'
    simp only [postLoop, if_neg hsmall, if_neg hbig, if_pos hm, hnone] at h
    cases h
  | case9 c next rest2 hsmall hbig hm r hr ih =>
    intro out h c' hc'
    simp only [postLoop, if_neg hsmall, if_neg hbig, if_pos hm, hr] at h
    cases h
    rcases List.mem_cons.mp hc' with hmem | hmem
    · subst hmem
      have := mergeTwoChunks_bound c next cfg hm
      omega
    · exact ih r hr c' hmem
  | case10 c next rest2 hsmall hbig hmerge hnone ih =>
    intro out h c' hc'
    simp only [postLoop, if_neg hsmall, if_neg hbig, if_neg hmerge, hnone] at h
    cases h
  | case11 c next rest2 hsmall hbig hmerge r hr ih =>
    intro out h c' hc'
    simp only [postLoop, if_neg hsmall, if_neg hbig, if_neg hmerge, hr] at h
    cases h
    rcases List.mem_cons.mp hc' with hmem | hmem
    · subst hmem; omega
    · exact ih r hr c' hmem

/-- C3 (amended, top level): the renumbering pass of
`post_process_chunks` does not change texts, so the bound carries to the
final output. -/
theorem C3_post_process_size_bound (fuel : Nat) (cfg : MChunkConfig)
    (chunks out : List MChunk) (h : postProcessChunksF fuel chunks cfg = some out) :
    ∀ c ∈ out, utf8Len c.text ≤
      max cfg.max_chunk_size (max cfg.target_chunk_size (2 * cfg.target_chunk_size - 1)) := by
  intro c hc
  simp only [postProcessChunksF] at h
  split at h
  · rename_i hemp
    cases h
    rw [hemp] at hc
    simp at hc
  · rcases Option.map_eq_some'.mp h with ⟨l, hl, hout⟩
    subst hout
    rcases List.mem_map.mp hc with ⟨p, hp, hpc⟩
    have hsnd : p.2 ∈ l := by
      rcases p with ⟨i, x⟩
      obtain ⟨hi, hx⟩ := List.mem_enum hp
      rw [hx]
      exact List.getElem_mem hi
    have := postLoop_bound fuel cfg chunks l hl p.2 hsnd
    have hct : c.text = p.2.text := by rw [← hpc]
    rw [hct]
    exact this

set_option maxRecDepth 8000 in
/-- C3, counterexample to the claim as stated: with `target = 100` and
`max = 150`, two 99-byte chunks pass `should_merge`
(`99 + 99 ≤ 200`, both `< 100`... both `< target`), and the merged
chunk has `99 + 1 + 99 = 199 > 150 = max_chunk_size` bytes, so
`post_process_chunks` returns a chunk exceeding the `max_chunk_size`
ceiling. -/
theorem C3_merged_chunk_exceeds_max :
    ∃ c ∈ (postProcessChunksF 4 [chunkA99, chunkB99] cfgOver).getD [],
      cfgOver.max_chunk_size < utf8Len c.text := by
  decide

set_option maxRecDepth 8000 in
/-- Witness for `C3_post_process_size_bound` at a concrete input. -/
theorem C3_post_process_size_bound_witness :
    postProcessChunksF 4 [chunkA] cfgHash = some [chunkA] ∧
    ∀ c ∈ [chunkA], utf8Len c.text ≤
      max cfgHash.max_chunk_size
        (max cfgHash.target_chunk_size (2 * cfgHash.target_chunk_size - 1)) := by
  have h : postProcessChunksF 4 [chunkA] cfgHash = some [chunkA] := by decide
  exact ⟨h, C3_post_process_size_bound 4 cfgHash [chunkA] [chunkA] h⟩

/-! ## C8: parser output and null bytes -/

/-- C8, counterexample to the claim as stated: a `.txt` file whose
contents are a single NUL character is classified `PlainText`, so
`parse_file` returns the raw text unchanged — `is_likely_text` is only
consulted for the `Unknown` classification — and the returned text
contains a null byte.  (`fs::read_to_string` accepts NUL: it is valid
UTF-8.) -/
theorem C8_plaintext_keeps_null_byte :
    pContentTypeFromExt (some "txt".toList) = PContentType.plainText ∧
    parseFile .plainText [Char.ofNat 0] = some (.ok [Char.ofNat 0]) ∧
    ([Char.ofNat 0] : RStr).contains (Char.ofNat 0) = true :=
  ⟨rfl, rfl, rfl⟩

/-- C8 (amended): the output of a successful `parse_file` is valid
UTF-8 for every classification (in the model by construction: Rust
`read_to_string` only yields valid UTF-8 and the cleaners operate on
characters); the no-null-byte guarantee holds exactly for the `Unknown`
classification, where the null-byte sniff rejects binary input — there
the output is the raw text and contains no NUL. -/
theorem C8_unknown_output_has_no_null (raw out : RStr)
    (h : parseFile .unknown raw = some (.ok out)) :
    out = raw ∧ out.contains (Char.ofNat 0) = false := by
  simp only [parseFile] at h
  split at h
  · rename_i hlikely
    cases h
    refine ⟨rfl, ?_⟩
    simpa [isLikelyText] using hlikely
  · cases h

/-- Witness for `C8_unknown_output_has_no_null` at a concrete input. -/
theorem C8_unknown_output_has_no_null_witness :
    parseFile .unknown "hi".toList = some (.ok "hi".toList) ∧
    "hi".toList = "hi".toList ∧ ("hi".toList : RStr).contains (Char.ofNat 0) = false := by
  have h : parseFile .unknown "hi".toList = some (.ok "hi".toList) := rfl
  exact ⟨h, C8_unknown_output_has_no_null "hi".toList "hi".toList h⟩

/-! ## C9: snippet truncation safety -/

set_option maxRecDepth 2000 in
/-- C9, behaviour at the failing input: the text is longer than 150
bytes, so `truncate_snippet` evaluates `&text[..150]` — but byte 150 is
not a char boundary, and the slice panics (modelled as `none`).  The
claim that snippet construction is defined for every valid UTF-8 chunk
text is refuted; it would require rounding the cut to a boundary or
using a checked slice. -/
theorem C9_truncate_snippet_panics :
    utf8Len snippetPanicText = 151 ∧
    isCharBoundary snippetPanicText maxSnippetLength = false ∧
    truncateSnippet snippetPanicText maxSnippetLength = none := by
  decide

/-! ## C6: trigram embedding determinism -/

set_option maxRecDepth 10000 in
/-- C6, counterexample to the claim as stated: the two orders are
permutations of the same word-frequency map (the entries of the Rust
`HashMap`, whose iteration order is unspecified and randomized per map
instance), yet the resulting embeddings differ — in dimension 0 the
binary32 sums `((((1+1)+sqrt 2)+2)+sqrt 3)+3` and
`((((1+1)+sqrt 3)+3)+sqrt 2)+2` round differently, and the difference
survives normalization.  Two calls to `embed` build two `HashMap`s with
different seeds, so byte-identical output is not guaranteed. -/
theorem C6_embedding_depends_on_iteration_order :
    wordFreqList trigramText = trigramOrder1 ∧
    trigramOrder2.Perm trigramOrder1 ∧
    generateTrigramEmbedding 2 trigramOrder1 ≠ generateTrigramEmbedding 2 trigramOrder2 := by
  refine ⟨by with_unfolding_all decide, by decide, by with_unfolding_all decide⟩

theorem applyIncsExact_append (v : List ℚ) (a b : List (Nat × ℚ)) :
    applyIncsExact v (a ++ b) = applyIncsExact (applyIncsExact v a) b := by
  simp [applyIncsExact, List.foldl_append]

theorem applyIncsExact_length (incs : List (Nat × ℚ)) (v : List ℚ) :
    (applyIncsExact v incs).length = v.length := by
  induction incs generalizing v with
  | nil => rfl
  | cons p rest ih =>
    simp only [applyIncsExact, List.foldl_cons] at ih ⊢
    rw [ih, List.length_set]

/-- Exact accumulation is, entrywise, the starting value plus the sum
of the increments that target the entry. -/
theorem applyIncsExact_getD (incs : List (Nat × ℚ)) (v : List ℚ) (d : Nat)
    (hd : d < v.length) :
    (applyIncsExact v incs).getD d 0 =
      v.getD d 0 + ((incs.filter (fun p => p.1 = d)).map Prod.snd).sum := by
  induction incs generalizing v with
  | nil => simp [applyIncsExact]
  | cons p rest ih =>
    have hstep : applyIncsExact v (p :: rest) =
        applyIncsExact (v.set p.1 (v.getD p.1 0 + p.2)) rest := rfl
    rw [hstep, ih _ (by rw [List.length_set]; exact hd)]
    by_cases hpd : p.1 = d
    · subst hpd
      have hset : (v.set p.1 (v.getD p.1 0 + p.2)).getD p.1 0 = v.getD p.1 0 + p.2 := by
        simp [List.getD_eq_getElem?_getD, List.getElem?_set, hd]
      rw [hset]
      simp only [List.filter_cons, decide_eq_true_eq, if_pos trivial, List.map_cons,
        List.sum_cons]
      ring
    · have hset : (v.set p.1 (v.getD p.1 0 + p.2)).getD d 0 = v.getD d 0 := by
        simp [List.getD_eq_getElem?_getD, List.getElem?_set, hpd]
      rw [hset]
      simp [List.filter_cons, hpd]

/-- The word-by-word exact accumulation equals one exact accumulation
of all increments in iteration order. -/
theorem trigramAccumExact_eq_flat (dims : Nat) (order : List (RStr × Nat)) :
    trigramAccumExact dims order =
      applyIncsExact (List.replicate dims 0) (order.flatMap (wordIncrements dims)) := by
  suffices h : ∀ v, order.foldl (fun v wf => applyIncsExact v (wordIncrements dims wf)) v =
      applyIncsExact v (order.flatMap (wordIncrements dims)) by
    exact h _
  induction order with
  | nil => intro v; rfl
  | cons wf rest ih =>
    intro v
    simp only [List.foldl_cons, List.flatMap_cons]
    rw [applyIncsExact_append]
    exact ih _

/-- C6 (amended): the multiset of binary32 addends is fully determined
by the text and dimension count, and with exact (associative,
commutative) addition the accumulated vector is independent of the
`HashMap` iteration order — any two enumerations of the word-frequency
map give identical results.  The code, however, accumulates with
binary32 `+=` in iteration order, which is only guaranteed to agree up
to rounding: bit-identity across calls holds whenever the iteration
orders coincide, but not in general (see the counterexample). -/
theorem C6_exact_accumulation_order_independent (dims : Nat)
    (o1 o2 : List (RStr × Nat)) (h : o1.Perm o2) :
    trigramAccumExact dims o1 = trigramAccumExact dims o2 := by
  rw [trigramAccumExact_eq_flat, trigramAccumExact_eq_flat]
  have hperm := h.flatMap_right (wordIncrements dims)
  apply List.ext_getElem
  · rw [applyIncsExact_length, applyIncsExact_length]
  · intro n h1 h2
    have hn : n < (List.replicate dims (0 : ℚ)).length := by
      rw [applyIncsExact_length] at h1
      exact h1
    have e1 := applyIncsExact_getD (o1.flatMap (wordIncrements dims)) (List.replicate dims 0) n hn
    have e2 := applyIncsExact_getD (o2.flatMap (wordIncrements dims)) (List.replicate dims 0) n hn
    have hsum : (((o1.flatMap (wordIncrements dims)).filter (fun p => p.1 = n)).map
        Prod.snd).sum =
        (((o2.flatMap (wordIncrements dims)).filter (fun p => p.1 = n)).map Prod.snd).sum :=
      ((hperm.filter _).map _).sum_eq
    have hg1 : (applyIncsExact (List.replicate dims 0)
        (o1.flatMap (wordIncrements dims))).getD n 0 =
        (applyIncsExact (List.replicate dims 0) (o1.flatMap (wordIncrements dims)))[n] := by
      simp [List.getD_eq_getElem?_getD, List.getElem?_eq_getElem h1]
    have hg2 : (applyIncsExact (List.replicate dims 0)
        (o2.flatMap (wordIncrements dims))).getD n 0 =
        (applyIncsExact (List.replicate dims 0) (o2.flatMap (wordIncrements dims)))[n] := by
      simp [List.getD_eq_getElem?_getD, List.getElem?_eq_getElem h2]
    rw [← hg1, ← hg2, e1, e2, hsum]

set_option maxRecDepth 10000 in
/-- Witness for `C6_exact_accumulation_order_independent` at the two
concrete C6 orders. -/
theorem C6_exact_accumulation_order_independent_witness :
    trigramAccumExact 2 trigramOrder2 = trigramAccumExact 2 trigramOrder1 :=
  C6_exact_accumulation_order_independent 2 trigramOrder2 trigramOrder1 (by decide)

/-! ## C4: stats and the in-memory source-id set -/

theorem insertSourceId_nodup (ids : List RStr) (s : RStr) (h : ids.Nodup) :
    (insertSourceId ids s).Nodup := by
  unfold insertSourceId
  split
  · exact h
  · rename_i hc
    refine h.append (List.nodup_singleton s) ?_
    rw [List.disjoint_singleton]
    simpa using hc

theorem insertSourceId_toFinset (ids : List RStr) (s : RStr) :
    (insertSourceId ids s).toFinset = insert s ids.toFinset := by
  unfold insertSourceId
  split
  · rename_i hc
    have hs : s ∈ ids.toFinset := List.mem_toFinset.mpr (by simpa using hc)
    rw [Finset.insert_eq_self.mpr hs]
  · rw [List.toFinset_append]
    simp only [List.toFinset_cons, List.toFinset_nil, insert_emptyc_eq]
    rw [Finset.union_comm]
    exact (Finset.insert_eq s ids.toFinset).symm

theorem foldl_insertSourceId_nodup (chunks : List MKnowledgeChunk) :
    ∀ ids : List RStr, ids.Nodup →
      (chunks.foldl (fun acc c => insertSourceId acc c.source_id) ids).Nodup := by
  induction chunks with
  | nil => intro ids h; exact h
  | cons c rest ih =>
    intro ids h
    exact ih _ (insertSourceId_nodup ids c.source_id h)

theorem foldl_insertSourceId_toFinset (chunks : List MKnowledgeChunk) :
    ∀ ids : List RStr,
      (chunks.foldl (fun acc c => insertSourceId acc c.source_id) ids).toFinset =
        ids.toFinset ∪ (chunks.map (fun c => c.source_id)).toFinset := by
  induction chunks with
  | nil => intro ids; simp
  | cons c rest ih =>
    intro ids
    rw [List.foldl_cons, ih, insertSourceId_toFinset]
    simp only [List.map_cons, List.toFinset_cons]
    rw [Finset.insert_union, Finset.union_insert]

/-- Destructured form of a successful `upsert_chunks`. -/
theorem upsertChunks_ok (idx : MLanceIdx) (chunks : List MKnowledgeChunk)
    (h : (upsertChunks idx chunks).2 = true) :
    (chunks = [] ∧ (upsertChunks idx chunks).1 = idx) ∨
    (chunks ≠ [] ∧ chunks.all (chunkToBatchOk idx.embeddingDim) = true ∧
      (upsertChunks idx chunks).1 =
        { idx with
          sourceIds := chunks.foldl (fun acc c => insertSourceId acc c.source_id) idx.sourceIds
          rows := idx.rows ++ chunks }) := by
  unfold upsertChunks at h ⊢
  split at h
  · rename_i he
    left
    exact ⟨he, by rw [if_pos he]⟩
  · rename_i he
    right
    split at h
    · rename_i hall
      refine ⟨he, hall, ?_⟩
      rw [if_neg he, if_pos hall]
    · simp at h

theorem lanceReach_dim (init : List MKnowledgeChunk) (dim : Nat) (idx : MLanceIdx)
    (sess : List MKnowledgeChunk) (h : LanceReach init dim idx sess) :
    idx.embeddingDim = dim := by
  induction h with
  | base => rfl
  | step hr hok ih =>
    rcases upsertChunks_ok _ _ hok with ⟨_, heq⟩ | ⟨_, _, heq⟩ <;> rw [heq] <;> exact ih

theorem lanceReach_rows (init : List MKnowledgeChunk) (dim : Nat) (idx : MLanceIdx)
    (sess : List MKnowledgeChunk) (h : LanceReach init dim idx sess) :
    idx.rows = init ++ sess := by
  induction h with
  | base => simp [lanceNew]
  | step hr hok ih =>
    rename_i idx' sess' chunks'
    rcases upsertChunks_ok _ _ hok with ⟨hemp, heq⟩ | ⟨_, _, heq⟩
    · rw [heq, hemp, List.append_nil]
      exact ih
    · rw [heq]
      simp only [ih]
      rw [List.append_assoc]

theorem lanceReach_sourceIds (init : List MKnowledgeChunk) (dim : Nat) (idx : MLanceIdx)
    (sess : List MKnowledgeChunk) (h : LanceReach init dim idx sess) :
    idx.sourceIds.Nodup ∧
      idx.sourceIds.toFinset = (sess.map (fun c => c.source_id)).toFinset := by
  induction h with
  | base => exact ⟨List.nodup_nil, by simp [lanceNew]⟩
  | step hr hok ih =>
    rename_i idx' sess' chunks'
    rcases upsertChunks_ok _ _ hok with ⟨hemp, heq⟩ | ⟨_, _, heq⟩
    · rw [heq, hemp, List.append_nil]
      exact ih
    · rw [heq]
      refine ⟨foldl_insertSourceId_nodup _ _ ih.1, ?_⟩
      rw [foldl_insertSourceId_toFinset, ih.2, List.map_append, List.toFinset_append]

/-- C4 (amended): for every index handle state reached by opening over
any persisted rows and performing successful batch upserts, `stats()`
returns the number of distinct `source_id` values among the chunks
upserted through this handle since it was opened, together with the
total stored row count.  Sources already on disk at open are not
counted: the `source_ids` set is a fresh in-memory `HashSet`. -/
theorem C4_stats_session_sources (init : List MKnowledgeChunk) (dim : Nat)
    (idx : MLanceIdx) (sess : List MKnowledgeChunk) (h : LanceReach init dim idx sess) :
    lanceStats idx =
      ((sess.map (fun c => c.source_id)).toFinset.card, init.length + sess.length) := by
  obtain ⟨hnodup, hfin⟩ := lanceReach_sourceIds init dim idx sess h
  have hrows := lanceReach_rows init dim idx sess h
  unfold lanceStats
  rw [hrows]
  have hcard : idx.sourceIds.length = (sess.map (fun c => c.source_id)).toFinset.card := by
    rw [← hfin]
    exact (List.toFinset_card_of_nodup hnodup).symm
  rw [hcard, List.length_append]

/-- C4, counterexample to the claim as stated: after reopening, the
stored chunks contain one distinct `source_id`, but `stats()` reports
`(0, 1)` — the distinct-source count is the size of the in-memory set,
which starts empty on open, not a property of the stored rows. -/
theorem C4_stats_wrong_after_reopen :
    lanceStats idxReopened = (0, 1) ∧
    ((idxReopened.rows.map (fun c => c.source_id)).dedup).length = 1 := by
  refine ⟨rfl, rfl⟩

/-- Witness for `C4_stats_session_sources` at a concrete reachable
state. -/
theorem C4_stats_session_sources_witness :
    lanceStats idxSession1 =
      ((([kcOne].map (fun c => c.source_id)).toFinset.card : Nat),
        ([] : List MKnowledgeChunk).length + [kcOne].length) ∧
    lanceStats idxSession1 = (1, 1) := by
  have hreach : LanceReach [] 1 idxSession1 [kcOne] := by
    have hok : (upsertChunks (lanceNew [] 1) [kcOne]).2 = true := rfl
    have := LanceReach.step (@LanceReach.base [] 1) hok
    simpa [idxSession1] using this
  refine ⟨?_, rfl⟩
  have := C4_stats_session_sources [] 1 idxSession1 [kcOne] hreach
  simpa using this

/-! ## C5: search contract -/

theorem fround_zero : fround 0 = 0 := by simp [fround]

theorem fmul_zero_zero : fmul 0 0 = 0 := by
  rw [fmul, mul_zero, fround_zero]

theorem fadd_zero_zero : fadd 0 0 = 0 := by
  rw [fadd, add_zero, fround_zero]

theorem fsumF32_zeros (l : List ℚ) (h : ∀ x ∈ l, x = 0) : fsumF32 l = 0 := by
  unfold fsumF32
  induction l with
  | nil => rfl
  | cons x rest ih =>
    rw [List.foldl_cons, h x (List.mem_cons_self x rest), fadd_zero_zero]
    exact ih fun y hy => h y (List.mem_cons_of_mem x hy)

theorem fsqrt_zero : fsqrt 0 = 0 := by simp [fsqrt]

/-- Rust `cosine_similarity` of the all-zero query with anything is
`0.0`: the query norm is exactly zero, and the zero-norm guard fires. -/
theorem cosineSimilarity_zero_left (q e : List ℚ) (h : ∀ x ∈ q, x = 0) :
    cosineSimilarity q e = 0 := by
  unfold cosineSimilarity
  split
  · rfl
  · have hna : fsqrt (fsumF32 (q.map fun x => fmul x x)) = 0 := by
      have hz : ∀ y ∈ q.map fun x => fmul x x, y = 0 := by
        intro y hy
        rcases List.mem_map.mp hy with ⟨x, hx, hxy⟩
        rw [← hxy, h x hx, fmul_zero_zero]
      rw [fsumF32_zeros _ hz, fsqrt_zero]
    rw [if_pos (Or.inl hna)]

/-- A chunk passing the `chunk_to_batch` validation has an embedding of
exactly the index dimension. -/
theorem chunkToBatchOk_some (dim : Nat) (c : MKnowledgeChunk)
    (h : chunkToBatchOk dim c = true) :
    ∃ e, c.embedding = some e ∧ e.length = dim := by
  unfold chunkToBatchOk at h
  match he : c.embedding with
  | some e =>
    rw [he] at h
    exact ⟨e, rfl, by simpa using h⟩
  | none => rw [he] at h; cases h

/-- Every stored row of a reachable handle passed the `chunk_to_batch`
validation (opened-over rows by hypothesis — they were written by an
earlier handle of the same dimension). -/
theorem lanceReach_rows_valid (init : List MKnowledgeChunk) (dim : Nat)
    (idx : MLanceIdx) (sess : List MKnowledgeChunk) (h : LanceReach init dim idx sess)
    (hinit : ∀ c ∈ init, chunkToBatchOk dim c = true) :
    ∀ c ∈ idx.rows, chunkToBatchOk dim c = true := by
  induction h with
  | base => simpa [lanceNew] using hinit
  | step hr hok ih =>
    rename_i idx' sess' chunks'
    rcases upsertChunks_ok _ _ hok with ⟨_, heq⟩ | ⟨_, hall, heq⟩
    · rw [heq]; exact ih
    · rw [heq]
      intro c hc
      rcases List.mem_append.mp hc with hmem | hmem
      · exact ih c hmem
      · have hdim := lanceReach_dim _ _ _ _ hr
        have := List.all_eq_true.mp hall c hmem
        rw [hdim] at this
        exact this

/-- C5: over every reachable index state, `search` with the rows
returned by the LanceDB nearest-neighbour query (its contract: rows of
the table, at most `k` of them) returns at most `k` results, sorted by
descending score; every returned score is exactly the code's binary32
`cosine_similarity` of the query with that chunk's stored embedding (in
particular within 10⁻⁴ of it); and the all-zero query scores `0.0` on
every chunk. -/
theorem C5_search_contract
    (init : List MKnowledgeChunk) (dim : Nat) (idx : MLanceIdx)
    (sess retrieved : List MKnowledgeChunk) (q : List ℚ) (k : Nat)
    (res : List (MKnowledgeChunk × ℚ))
    (hreach : LanceReach init dim idx sess)
    (hinit : ∀ c ∈ init, chunkToBatchOk dim c = true)
    (hsub : ∀ c ∈ retrieved, c ∈ idx.rows)
    (hlen : retrieved.length ≤ k)
    (hq : q.length = dim)
    (hok : searchModel idx q retrieved = .ok res) :
    res.length ≤ k ∧
    List.Pairwise (fun a b : MKnowledgeChunk × ℚ => b.2 ≤ a.2) res ∧
    (∀ p ∈ res, ∃ e, p.1.embedding = some e ∧ e.length = dim ∧
      p.2 = cosineSimilarity q e) ∧
    ((∀ x ∈ q, x = 0) → ∀ p ∈ res, p.2 = 0) := by
  have hdim := lanceReach_dim _ _ _ _ hreach
  unfold searchModel at hok
  rw [if_neg (by rw [hq, hdim]; exact fun hne => hne rfl)] at hok
  cases hok
  have hperm := List.mergeSort_perm (retrieved.map (scoreRow q)) scoreDesc
  have hscores : ∀ p ∈ (retrieved.map (scoreRow q)).mergeSort scoreDesc,
      ∃ e, p.1.embedding = some e ∧ e.length = dim ∧ p.2 = cosineSimilarity q e := by
    intro p hp
    have hp2 : p ∈ retrieved.map (scoreRow q) := hperm.mem_iff.mp hp
    rcases List.mem_map.mp hp2 with ⟨c, hc, hpc⟩
    have hvalid := lanceReach_rows_valid init dim idx sess hreach hinit c (hsub c hc)
    rcases chunkToBatchOk_some dim c hvalid with ⟨e, he, hlen'⟩
    refine ⟨e, ?_, hlen', ?_⟩
    · rw [← hpc]
      exact he
    · rw [← hpc]
      simp [scoreRow, he]
  refine ⟨?_, ?_, hscores, ?_⟩
  · rw [hperm.length_eq, List.length_map]
    exact hlen
  · have hsorted := @List.sorted_mergeSort _ scoreDesc
      (fun a b c hab hbc => by
        simp only [scoreDesc, decide_eq_true_eq] at hab hbc ⊢
        exact le_trans hbc hab)
      (fun a b => by
        simp only [scoreDesc, Bool.or_eq_true, decide_eq_true_eq]
        exact le_total b.2 a.2)
      (retrieved.map (scoreRow q))
    exact hsorted.imp fun hab => by
      simpa only [scoreDesc, decide_eq_true_eq] using hab
  · intro hzero p hp
    rcases hscores p hp with ⟨e, _, _, hcos⟩
    rw [hcos, cosineSimilarity_zero_left q e hzero]

/-- Witness for `C5_search_contract` at a concrete reachable state and
the all-zero query. -/
theorem C5_search_contract_witness :
    searchModel idxTwo [0, 0] [kcTwo] = .ok [(kcTwo, 0)] ∧
    ([(kcTwo, (0 : ℚ))].length ≤ 1 ∧
      List.Pairwise (fun a b : MKnowledgeChunk × ℚ => b.2 ≤ a.2) [(kcTwo, (0 : ℚ))] ∧
      (∀ p ∈ [(kcTwo, (0 : ℚ))], ∃ e, p.1.embedding = some e ∧ e.length = 2 ∧
        p.2 = cosineSimilarity [0, 0] e) ∧
      ((∀ x ∈ ([0, 0] : List ℚ), x = 0) → ∀ p ∈ [(kcTwo, (0 : ℚ))], p.2 = 0)) := by
  have hok : searchModel idxTwo [0, 0] [kcTwo] = .ok [(kcTwo, 0)] := by
    with_unfolding_all rfl
  have hreach : LanceReach [] 2 idxTwo [kcTwo] := by
    have h2 : (upsertChunks (lanceNew [] 2) [kcTwo]).2 = true := rfl
    have := LanceReach.step (@LanceReach.base [] 2) h2
    simpa [idxTwo] using this
  refine ⟨hok, ?_⟩
  exact C5_search_contract [] 2 idxTwo [kcTwo] [kcTwo] [0, 0] 1 [(kcTwo, 0)]
    hreach (by intro c hc; cases hc)
    (by
      intro c hc
      have hc1 : c = kcTwo := by simpa using hc
      rw [hc1]
      with_unfolding_all decide)
    (by decide) rfl hok

/-! ## C1: batch failure policy of learn -/

/-- C1, counterexample to the claim as stated: the first batch (files
1–10) fails at the embedding step, yet `learn` does not abort — it
continues with the remaining file, retries the still-pending batch
together with it (two embed calls in total), tracks all 11 sources and
returns `Ok` with their stats.  No error is surfaced to the caller. -/
theorem C1_embed_failure_not_surfaced :
    (learnModel orcFirstEmbedFails filesEleven).2 = .ok ⟨11, 11, 11⟩ ∧
    (learnModel orcFirstEmbedFails filesEleven).1.log.length = 11 ∧
    (learnModel orcFirstEmbedFails filesEleven).1.embedCalls = 2 := by
  exact ⟨rfl, rfl, rfl⟩

/-- On an embed-call failure `process_batch` returns the error with the
pending buffer, the source log, and the index contents untouched (the
failed files stay buffered for the next batch attempt). -/
theorem processBatchModel_embed_fail (orc : MLearnOracle) (st : MLearnSt)
    (hp : st.pending ≠ [])
    (hc : st.pending.foldr (fun p acc => p.chunks ++ acc) [] ≠ [])
    (he : orc.embedOk st.embedCalls = false) :
    (processBatchModel orc st).2 = .error () ∧
    (processBatchModel orc st).1.pending = st.pending ∧
    (processBatchModel orc st).1.log = st.log ∧
    (processBatchModel orc st).1.indexed = st.indexed := by
  unfold processBatchModel
  rw [if_neg hp, if_neg hc, he]
  exact ⟨rfl, rfl, rfl, rfl⟩

/-- Any `process_batch` outcome keeps the invariant that the number of
tracked sources in the log grows by exactly the reported batch source
count (and not at all on failure). -/
theorem processBatchModel_log_length (orc : MLearnOracle) (st : MLearnSt) :
    ((processBatchModel orc st).2 = .error () ∧
      (processBatchModel orc st).1.log = st.log) ∨
    (∃ a b c, (processBatchModel orc st).2 = .ok (a, b, c) ∧
      (processBatchModel orc st).1.log.length = st.log.length + a) := by
  simp only [processBatchModel]
  by_cases hp : st.pending = []
  · rw [if_pos hp]
    right
    exact ⟨0, 0, 0, rfl, by simp⟩
  · rw [if_neg hp]
    by_cases hall : st.pending.foldr (fun p acc => p.chunks ++ acc) [] = []
    · rw [if_pos hall]
      right
      exact ⟨st.pending.length, _, _, rfl, by simp [trackBatch]⟩
    · rw [if_neg hall]
      by_cases hemb : (!orc.embedOk st.embedCalls) = true
      · rw [if_pos hemb]
        left
        exact ⟨rfl, rfl⟩
      · rw [if_neg hemb]
        by_cases hup : (!orc.upsertOk st.upsertCalls) = true
        · rw [if_pos hup]
          left
          exact ⟨rfl, rfl⟩
        · rw [if_neg hup]
          right
          exact ⟨st.pending.length, _, _, rfl, by simp [trackBatch]⟩

/-- The loop invariant: accumulated `sources_count` equals the length
of the source log. -/
theorem learnGo_sources_eq_log (orc : MLearnOracle) :
    ∀ (files : List (Except Unit MPendingFile)) (idx total : Nat)
      (s : MLearnSt × MLearnStats),
      s.2.sourcesCount = s.1.log.length →
      (learnGo orc files idx total s).2.sourcesCount =
        (learnGo orc files idx total s).1.log.length := by
  intro files
  induction files with
  | nil => intro idx total s h; exact h
  | cons f rest ih =>
    intro idx total s h
    rcases s with ⟨st, stats⟩
    match f with
    | .error _ => exact ih _ _ _ h
    | .ok pf =>
      simp only [learnGo]
      split
      · have hspec := processBatchModel_log_length orc { st with pending := st.pending ++ [pf] }
        rcases hpb : processBatchModel orc { st with pending := st.pending ++ [pf] } with ⟨st2, r⟩
        rw [hpb] at hspec
        match r with
        | .error _ =>
          simp only at hspec ⊢
          rcases hspec with ⟨_, hlog⟩ | ⟨a, b, c, habs, _⟩
          · exact ih _ _ _ (by simp only [hlog]; exact h)
          · cases habs
        | .ok v =>
          rcases v with ⟨a, ⟨b, c⟩⟩
          simp only at hspec ⊢
          rcases hspec with ⟨habs, _⟩ | ⟨a2, b2, c2, hok2, hlen⟩
          · cases habs
          · have ha : a2 = a := by
              injection hok2 with hv
              exact (congrArg Prod.fst hv).symm
            refine ih _ _ _ ?_
            simp only
            rw [hlen, ← ha, h]
      · exact ih _ _ _ h

/-- C1 (amended): a batch that fails embedding or upsert does not abort
ingest and is not surfaced: the error is logged, the failed files stay
pending (retried with the next batch attempt), and `learn` always
returns `Ok`; the stats it reports count exactly the sources committed
to the log by successful batches. -/
theorem C1_learn_continues_after_batch_failure (orc : MLearnOracle)
    (files : List (Except Unit MPendingFile)) (st : MLearnSt)
    (hp : st.pending ≠ [])
    (hc : st.pending.foldr (fun p acc => p.chunks ++ acc) [] ≠ [])
    (he : orc.embedOk st.embedCalls = false) :
    (∃ stats, (learnModel orc files).2 = .ok stats ∧
      stats.sourcesCount = (learnModel orc files).1.log.length) ∧
    (processBatchModel orc st).2 = .error () ∧
    (processBatchModel orc st).1.pending = st.pending ∧
    (processBatchModel orc st).1.log = st.log := by
  have hfail := processBatchModel_embed_fail orc st hp hc he
  refine ⟨⟨(learnGo orc files 0 files.length (⟨[], [], [], 0, 0⟩, ⟨0, 0, 0⟩)).2, rfl, ?_⟩,
    hfail.1, hfail.2.1, hfail.2.2.1⟩
  exact learnGo_sources_eq_log orc files 0 files.length _ rfl

/-- Witness for `C1_learn_continues_after_batch_failure` at the
concrete C1 scenario (first embed call fails, batch state holding one
one-chunk file). -/
theorem C1_learn_continues_after_batch_failure_witness :
    (∃ stats, (learnModel orcFirstEmbedFails filesEleven).2 = .ok stats ∧
      stats.sourcesCount = (learnModel orcFirstEmbedFails filesEleven).1.log.length) ∧
    (processBatchModel orcFirstEmbedFails
      ⟨[⟨"s".toList, [⟨"s".toList, 0, "x".toList,
          ⟨.text, none, (0, 1), none, 1, [], "t".toList⟩⟩], "p".toList, 1⟩], [], [], 0, 0⟩).2 =
        .error () ∧
    (processBatchModel orcFirstEmbedFails
      ⟨[⟨"s".toList, [⟨"s".toList, 0, "x".toList,
          ⟨.text, none, (0, 1), none, 1, [], "t".toList⟩⟩], "p".toList, 1⟩], [], [], 0, 0⟩).1.pending =
      [⟨"s".toList, [⟨"s".toList, 0, "x".toList,
          ⟨.text, none, (0, 1), none, 1, [], "t".toList⟩⟩], "p".toList, 1⟩] ∧
    (processBatchModel orcFirstEmbedFails
      ⟨[⟨"s".toList, [⟨"s".toList, 0, "x".toList,
          ⟨.text, none, (0, 1), none, 1, [], "t".toList⟩⟩], "p".toList, 1⟩], [], [], 0, 0⟩).1.log = [] :=
  C1_learn_continues_after_batch_failure orcFirstEmbedFails filesEleven _
    (by decide) (by decide) (by decide)

/-! ## C7: empty files and source tracking -/

/-- C7, counterexample to the claim as stated: ingesting a single file
whose parsed text is empty appends a `KnowledgeSource` record with
`chunk_count = 0` to the log and counts it in `sources_count = 1` —
even under an oracle failing every embed/upsert call, because a batch
with no chunks never reaches either external call (`embed_texts` and
`upsert_chunks` both return early on empty input) and `process_batch`
then tracks every pending file. -/
theorem C7_empty_file_is_tracked :
    (learnModel orcAllFail [.ok emptyPF]).1.log =
      [{ sourceId := "s".toList, path := "empty.txt".toList, chunkCount := 0, byteCount := 0 }] ∧
    (learnModel orcAllFail [.ok emptyPF]).2 = .ok ⟨1, 0, 0⟩ := by
  exact ⟨rfl, rfl⟩

/-- Helper: the text splitter drops every piece that trims to empty. -/
theorem textSplitterGo_all_empty (sourceId : RStr) :
    ∀ (l : List (Nat × RStr)) (off : Nat), (∀ x ∈ l, x.2 = []) →
      textSplitterGo sourceId l off = [] := by
  intro l
  induction l with
  | nil => intro off _; rfl
  | cons x rest ih =>
    intro off hall
    rcases x with ⟨pos, piece⟩
    have hpiece : piece = [] := hall (pos, piece) (List.mem_cons_self _ _)
    subst hpiece
    simp only [textSplitterGo, rustTrim, List.dropWhile_nil, List.reverse_nil, if_pos rfl]
    exact ih off fun y hy => hall y (List.mem_cons_of_mem _ hy)

/-- C7 (amended): a file whose parsed text is empty produces zero
chunks (for the text-splitter route: the external splitter's raw pieces
are substrings of the empty text, hence all empty, and are all dropped),
but its source is still tracked — `process_batch` appends one
`KnowledgeSource` record with `chunk_count = 0` for it and
`sources_count` counts it, regardless of the embed/upsert oracles. -/
theorem C7_empty_text_zero_chunks_source_tracked
    (rawPieces : List RStr) (sid : RStr) (orc : MLearnOracle) (pf : MPendingFile)
    (hraw : ∀ p ∈ rawPieces, p = []) (hpf : pf.chunks = []) :
    textSplitterSplit rawPieces sid = [] ∧
    (learnModel orc [.ok pf]).1.log =
      [{ sourceId := pf.sourceId, path := pf.path, chunkCount := 0, byteCount := pf.bytes }] ∧
    (learnModel orc [.ok pf]).2 = .ok ⟨1, 0, pf.bytes⟩ := by
  refine ⟨?_, ?_, ?_⟩
  · unfold textSplitterSplit
    refine textSplitterGo_all_empty sid rawPieces.enum 0 ?_
    intro x hx
    rcases x with ⟨i, piece⟩
    obtain ⟨_, hp⟩ := List.mem_enum hx
    exact hraw _ (hp ▸ List.getElem_mem _)
  all_goals
    simp only [learnModel, learnGo, List.length_cons, List.length_nil, learnBatchSize,
      List.nil_append]
    rw [if_pos (Or.inr trivial)]
    simp only [processBatchModel]
    rw [if_neg (by simp)]
    rw [if_pos (by simp [hpf])]
    simp [trackBatch, learnGo, hpf]

/-- Witness for `C7_empty_text_zero_chunks_source_tracked` at concrete
inputs. -/
theorem C7_empty_text_zero_chunks_source_tracked_witness :
    textSplitterSplit [[]] "s".toList = [] ∧
    (learnModel orcAllFail [.ok emptyPF]).1.log =
      [{ sourceId := emptyPF.sourceId, path := emptyPF.path, chunkCount := 0,
         byteCount := emptyPF.bytes }] ∧
    (learnModel orcAllFail [.ok emptyPF]).2 = .ok ⟨1, 0, emptyPF.bytes⟩ :=
  C7_empty_text_zero_chunks_source_tracked [[]] "s".toList orcAllFail emptyPF
    (by decide) (by decide)
